import Mathlib

/-!
A verification development for the Sync-Folders repository (src/main.py).

The program is a one-way directory mirroring tool with two operations:
`sync_directory(source, target)` and `verify_sync(source, target)`.

Shallow embedding conventions:

* A relative path is a list of segments (`RPath`).  A file-system tree is an
  association list from relative paths to entry metadata (`FS`); the list is
  the snapshot produced by one `Path.rglob("*")` walk, and its stored order is
  the (implementation-defined, deterministic) walk order.
* Entry metadata (`EMeta`) carries the kind flag (`isDir`), the modification
  time and the file content.  Modification times are modelled as rationals
  instead of IEEE floats: the program only subtracts, takes absolute values
  and compares against the constant `EPSILON = 0.1`, and that arithmetic has
  the same branch structure over the rationals.  Directories also carry a
  stored modification time because `os.path.getmtime` works on directories
  and `sync_directory` can reach such a read when a source file path is a
  directory on the target side.  Directories created by `mkdir` get a fixed
  timestamp; no modelled execution ever compares it.
* CPython behaviour that the code relies on, checked against CPython 3.11:
  `Path.rglob("*")` on a root that does not exist (or is not a directory)
  yields nothing and raises no exception; during a walk that deletes entries,
  each directory is listed when the walk reaches it and sub-directories are
  re-listed after the loop body ran on their parent's listing, so an entry
  removed by `shutil.rmtree` on an ancestor is never yielded.  `delWalk`
  below mirrors exactly that per-directory two-scan structure.
* `shutil.copy2` copies content and timestamps; when the destination is an
  existing directory it copies into it under the source base name, and when
  that inner path is itself a directory it raises an `OSError`.  The call
  sits in a `try` block whose handlers catch `PermissionError` and then
  `OSError`, i.e. every `OSError` it can raise; a suppressed failed copy is
  modelled as leaving the tree unchanged.  Which copy calls fail is an
  environment choice, modelled by an oracle `RPath → Option OSErr`.
* `Path.mkdir(parents=True, exist_ok=True)` on a well-formed tree either
  creates the missing ancestors as directories or raises (an `OSError`)
  without creating anything when the path or an ancestor exists as a file;
  this error is not caught by the program and aborts the sync.
* `input()` confirmation is a boundary concern: the engine takes the answer
  (`consentGiven` models the strip/lower/y-or-yes test).
* Symbolic links and concurrent external modification are not modelled
  (the specification leaves both out of scope).

Claims about roots that do not exist and about the source tree being left
untouched are stated on a one-world model (`World`): a single association
list over absolute paths, with the source and target trees carved out by
their root paths.
-/

namespace SyncFolders

attribute [local semireducible] Rat.sub Rat.add Rat.mul Rat.inv Rat.ofScientific

abbrev Seg := String

/-- A root-relative path: the list of path segments. -/
abbrev RPath := List Seg

/-- Metadata of one file-system entry, as the program reads it:
`Path.is_dir`, `os.path.getmtime`, and the copied content. -/
structure EMeta where
  isDir : Bool
  mtime : ℚ
  content : String
deriving DecidableEq, Repr

/-- One walked tree: an association list from relative paths to metadata,
in walk order.  This is the result of one `Path.rglob("*")` walk. -/
abbrev FS := List (RPath × EMeta)

/-- `leadsTo d p` holds when `d` is an initial segment of `p`
(`d` equal to `p` included): the path `p` lies at or below `d`. -/
def leadsTo : RPath → RPath → Bool
  | [], _ => true
  | _, [] => false
  | a :: as, b :: bs => a = b && leadsTo as bs

/-- `p` lies strictly below `d`. -/
def sUnder (d p : RPath) : Bool := leadsTo d p && decide (p ≠ d)

/-- Association-list lookup by path. -/
def lookupFS : FS → RPath → Option EMeta
  | [], _ => none
  | (q, m) :: rest, p => if q = p then some m else lookupFS rest p

/-- `Path.exists()` for a path inside the tree. -/
def existsP (fs : FS) (p : RPath) : Bool := (lookupFS fs p).isSome

/-- `Path.is_dir()`: false when the path does not exist. -/
def isDirP (fs : FS) (p : RPath) : Bool :=
  match lookupFS fs p with
  | some m => m.isDir
  | none => false

/-- `os.path.getmtime`: the program only calls it on paths it has just
checked to exist, so the default value for a missing path is never read. -/
def mtimeD (fs : FS) (p : RPath) : ℚ :=
  match lookupFS fs p with
  | some m => m.mtime
  | none => 0

/-- Write an entry: overwrite in place when the path is present, otherwise
append (creation order at the end of the walk order). -/
def setF (fs : FS) (p : RPath) (m : EMeta) : FS :=
  if existsP fs p then fs.map (fun e => if e.1 = p then (p, m) else e)
  else fs ++ [(p, m)]

/-- All nonempty initial segments of `p`, shortest first, `p` itself last. -/
def pfxs (p : RPath) : List RPath :=
  (List.range p.length).map (fun i => p.take (i + 1))

/-- The tolerance constant of the program: `EPSILON = 0.1` seconds. -/
def EPSILON : ℚ := 1 / 10

/-- The staleness test of `sync_directory`:
`abs(os.path.getmtime(source_fp) - os.path.getmtime(target_fp)) > EPSILON`. -/
def outdated (sm tm : ℚ) : Bool := decide (|sm - tm| > EPSILON)

/-- Well-formedness of a walked tree, as a real file system guarantees it:
paths are distinct and nonempty, and every proper ancestor of an entry is
itself an entry and a directory. -/
def wfFS (fs : FS) : Bool :=
  decide ((fs.map Prod.fst).Nodup)
    && fs.all (fun e => decide (e.1 ≠ []))
    && fs.all (fun e => (pfxs e.1.dropLast).all (fun q => isDirP fs q))

/-- Metadata of a directory created by `mkdir`: the creation timestamp is
not modelled (no modelled execution reads it). -/
def dirMeta : EMeta := ⟨true, 0, ""⟩

/-- The kinds of `OSError` that `shutil.copy2` can report. -/
inductive OSErr where
  | permission
  | diskFull
  | pathTooLong
  | otherIO
deriving DecidableEq, Repr

/-- Errors that escape `sync_directory` in the model: a `mkdir` conflict
(the path or an ancestor exists and is not a directory), or a deletion of a
path that no longer exists (`FileNotFoundError` from `unlink`). -/
inductive SyncErr where
  | mkdirConflict (p : RPath)
  | missing (p : RPath)
deriving DecidableEq, Repr

/-- The progress lines the program prints, one per copy or deletion. -/
inductive LogItem where
  | copying (p : RPath)
  | deletingDir (p : RPath)
  | deletingFile (p : RPath)
deriving DecidableEq, Repr

def LogItem.isCopy : LogItem → Bool
  | .copying _ => true
  | _ => false

/-- One step of `Path.mkdir(parents=True, exist_ok=True)`: ensure one
ancestor exists as a directory.  `exist_ok` silences the error only when
the existing entry is a directory; an existing non-directory raises. -/
def mkdirStep (fs : FS) (q : RPath) : Except SyncErr FS :=
  if isDirP fs q then .ok fs
  else if existsP fs q then .error (.mkdirConflict q)
  else .ok (fs ++ [(q, dirMeta)])

/-- `Path.mkdir(parents=True, exist_ok=True)` on `p`: ensure every nonempty
initial segment of `p` exists as a directory, shortest first. -/
def mkdirP (fs : FS) (p : RPath) : Except SyncErr FS :=
  (pfxs p).foldlM mkdirStep fs

/-- The last segment of a path (the base name `shutil.copy2` uses when the
destination is a directory). -/
def lastSegD (p : RPath) : Seg := p.getLastD ""

/-- The guarded `shutil.copy2(source_fp, target_fp)` call of
`sync_directory`: the `except PermissionError` / `except OSError` pair
catches every error the copy can raise, so this step is total and a failed
copy leaves the tree unchanged.  When the destination exists as a directory
the real `copy2` copies into it under the source base name. -/
def tryCopy (oracle : RPath → Option OSErr) (fs : FS) (rel : RPath) (m : EMeta) : FS :=
  match oracle rel with
  | some _ => fs
  | none =>
    if isDirP fs rel then
      let inner := rel ++ [lastSegD rel]
      if isDirP fs inner then fs
      else setF fs inner ⟨false, m.mtime, m.content⟩
    else setF fs rel ⟨false, m.mtime, m.content⟩

/-- Result of a phase of `sync_directory`: the target tree, the printed
progress lines, and the error that aborted the phase, if any. -/
structure SyncOut where
  fs : FS
  log : List LogItem
  err : Option SyncErr
deriving DecidableEq, Repr

/-- The body of the first loop of `sync_directory` for one source entry:
a directory gets `target_fp.mkdir(parents=True, exist_ok=True)`; a file is
skipped when the target path exists with a timestamp within `EPSILON`, and
otherwise the `Copying` line is printed, the parent directory is created,
and the guarded copy runs.  A `mkdir` failure is not caught and aborts with
the tree as it was (CPython's recursive `mkdir` creates nothing when it
hits an existing non-directory). -/
def srcStep (oracle : RPath → Option OSErr) (t : FS) (rel : RPath) (m : EMeta) :
    SyncOut :=
  if m.isDir then
    match mkdirP t rel with
    | .error e => ⟨t, [], some e⟩
    | .ok t1 => ⟨t1, [], none⟩
  else if existsP t rel && !outdated m.mtime (mtimeD t rel) then ⟨t, [], none⟩
  else
    match mkdirP t rel.dropLast with
    | .error e => ⟨t, [.copying rel], some e⟩
    | .ok t1 => ⟨tryCopy oracle t1 rel m, [.copying rel], none⟩

/-- The first loop of `sync_directory` over the source walk, entry by entry
in walk order; an uncaught error aborts the loop at that entry. -/
def copyPhase (oracle : RPath → Option OSErr) : FS → FS → SyncOut
  | [], t => ⟨t, [], none⟩
  | (rel, m) :: rest, t =>
    let r := srcStep oracle t rel m
    match r.err with
    | some _ => r
    | none =>
      let r2 := copyPhase oracle rest r.fs
      ⟨r2.fs, r.log ++ r2.log, r2.err⟩

/-- `shutil.rmtree`: remove the path and everything below it. -/
def rmTree (fs : FS) (c : RPath) : FS := fs.filter (fun e => !leadsTo c e.1)

/-- `Path.unlink`: remove the single entry at the path. -/
def unlinkF (fs : FS) (c : RPath) : FS := fs.filter (fun e => decide (e.1 ≠ c))

/-- The paths one `scandir` of directory `d` yields, in stored order. -/
def childrenOf (fs : FS) (d : RPath) : List RPath :=
  (fs.map Prod.fst).filter (fun q => decide (q.dropLast = d) && decide (q ≠ []))

/-- The deletion loop body applied to one directory listing: every yielded
path whose relative path is not in the keep list is deleted, directories
by `shutil.rmtree`, other entries by `Path.unlink`; each deletion is
preceded by its `Deleting` line.  `unlink` on a path that no longer exists
raises `FileNotFoundError`, which the loop does not catch. -/
def delChildren (keep : List RPath) : FS → List RPath → SyncOut
  | fs, [] => ⟨fs, [], none⟩
  | fs, c :: cs =>
    if c ∈ keep then delChildren keep fs cs
    else if isDirP fs c then
      let r := delChildren keep (rmTree fs c) cs
      ⟨r.fs, .deletingDir c :: r.log, r.err⟩
    else if existsP fs c then
      let r := delChildren keep (unlinkF fs c) cs
      ⟨r.fs, .deletingFile c :: r.log, r.err⟩
    else ⟨fs, [.deletingFile c], some (.missing c)⟩

/-- Run a walk step over the listed sub-directories, left to right,
stopping at the first error. -/
def seqWalk (f : FS → RPath → SyncOut) : FS → List RPath → SyncOut
  | fs, [] => ⟨fs, [], none⟩
  | fs, c :: cs =>
    let r := f fs c
    match r.err with
    | some e => ⟨r.fs, r.log, some e⟩
    | none =>
      let r2 := seqWalk f r.fs cs
      ⟨r2.fs, r.log ++ r2.log, r2.err⟩

/-- The deletion pass of `sync_directory`, i.e. the loop over
`target_dir.rglob("*")` while it deletes: visiting directory `d`, its
listing is processed by the loop body, then the walk re-lists `d` and
descends into the sub-directories that still exist (CPython's recursive
wildcard walk takes a fresh `scandir` per directory, taken only when the
walk reaches it).  The fuel argument dominates the tree depth. -/
def delWalk (keep : List RPath) : ℕ → FS → RPath → SyncOut
  | 0 => fun fs _ => ⟨fs, [], none⟩
  | fuel + 1 => fun fs d =>
    let r1 := delChildren keep fs (childrenOf fs d)
    match r1.err with
    | some e => ⟨r1.fs, r1.log, some e⟩
    | none =>
      let r2 := seqWalk (delWalk keep fuel) r1.fs
        ((childrenOf r1.fs d).filter (fun c => isDirP r1.fs c))
      ⟨r2.fs, r1.log ++ r2.log, r2.err⟩

/-- Descend into the listed sub-directories, left to right. -/
def delWalkDirs (keep : List RPath) (fuel : ℕ) : FS → List RPath → SyncOut :=
  seqWalk (delWalk keep fuel)

/-- An upper bound on path length in the tree. -/
def maxLen (fs : FS) : ℕ := fs.foldr (fun e n => max e.1.length n) 0

/-- Fuel that dominates the depth of the tree. -/
def fuelFor (fs : FS) : ℕ := maxLen fs + 1

/-- ASCII whitespace, the characters `str.strip()` removes from console
input in this program's use (the prompt answer is a line without its
newline). -/
def isSpc (c : Char) : Bool := c = ' ' || c = '\t' || c = '\n' || c = '\r'

/-- Drop leading whitespace from a character list. -/
def trimLead : List Char → List Char
  | [] => []
  | c :: cs => if isSpc c then trimLead cs else c :: cs

/-- `str.lower()` on one character, for the ASCII letters the comparison
against `"y"`/`"yes"` can meet. -/
def lowc (c : Char) : Char :=
  if 'A' ≤ c && c ≤ 'Z' then Char.ofNat (c.toNat + 32) else c

/-- The confirmation test of `sync_directory`:
`user_consent.strip().lower() in ["y", "yes"]`, spelled out over the
character list (strip both ends, lowercase, compare). -/
def consentGiven (s : String) : Bool :=
  let cs := ((trimLead ((trimLead s.toList.reverse)).reverse)).map lowc
  decide (cs = ['y']) || decide (cs = ['y', 'e', 's'])

/-- `sync_directory` after the confirmation gate, on two walked trees:
run the copy loop over the source walk; when it finished without an
uncaught error, run the deletion pass over the target with the keep list
collected from the source walk.  An error aborts the run at that point and
the partially updated target is returned with it. -/
def syncFS (oracle : RPath → Option OSErr) (consent : Bool) (src tgt : FS) : SyncOut :=
  if consent then
    let cp := copyPhase oracle src tgt
    match cp.err with
    | some _ => cp
    | none =>
      let keep := src.map Prod.fst
      let r := delWalk keep (fuelFor cp.fs) cp.fs []
      ⟨r.fs, cp.log ++ r.log, r.err⟩
  else ⟨tgt, [], none⟩

/-- `verify_sync` on two walked trees: walk both, then iterate
`itertools.zip_longest` over the two path lists; a fill value (unequal
lengths) fails, a path missing from the other list fails, a kind mismatch
at the source-list path fails, and for non-directories a timestamp gap
above `EPSILON` fails. -/
def verifyFS (src tgt : FS) : Bool :=
  let sps := src.map Prod.fst
  let tps := tgt.map Prod.fst
  decide (sps.length = tps.length)
    && (sps.zip tps).all (fun pr =>
        decide (pr.1 ∈ tps) && decide (pr.2 ∈ sps)
          && decide (isDirP src pr.1 = isDirP tgt pr.1)
          && (isDirP src pr.1 || !outdated (mtimeD src pr.1) (mtimeD tgt pr.1)))

/-- A whole file system over absolute paths (also segment lists). -/
abbrev World := FS

/-- The subtree below `root`, re-rooted: what a walk of `root` yields when
`root` exists. -/
def subtreeW (w : World) (root : RPath) : FS :=
  w.filterMap (fun e =>
    if leadsTo root e.1 && decide (e.1 ≠ root) then some (e.1.drop root.length, e.2)
    else none)

/-- `Path.rglob("*")` from a root in the world: a root that does not exist
(or is not a directory) yields nothing — CPython raises no error here. -/
def rglobW (w : World) (root : RPath) : FS :=
  if isDirP w root then subtreeW w root else []

/-- Write a finished target subtree back into the world: every mutating
call of `sync_directory` (`mkdir`, `copy2`, `rmtree`, `unlink`) addresses
`target_dir / relative_path`, so the rewrite replaces exactly what lies
strictly below the target root.  (Creation of the target root itself and
of its ancestors by `mkdir(parents=True)` is not modelled; with the two
roots prefix-disjoint it cannot touch the source subtree.) -/
def spliceW (w : World) (root : RPath) (t : FS) : World :=
  w.filter (fun e => !(leadsTo root e.1 && decide (e.1 ≠ root)))
    ++ t.map (fun e => (root ++ e.1, e.2))

/-- `sync_directory(source_dir, target_dir)` on the world: confirmation
gate, then the engine on the two subtrees. -/
def syncW (oracle : RPath → Option OSErr) (response : String) (w : World)
    (srcRoot tgtRoot : RPath) : World × List LogItem × Option SyncErr :=
  if consentGiven response then
    let out := syncFS oracle true (rglobW w srcRoot) (rglobW w tgtRoot)
    (spliceW w tgtRoot out.fs, out.log, out.err)
  else (w, [], none)

/-- `verify_sync(source_dir, target_dir)` on the world. -/
def verifyW (w : World) (srcRoot tgtRoot : RPath) : Bool :=
  verifyFS (rglobW w srcRoot) (rglobW w tgtRoot)

/-- The oracle of an environment where every copy succeeds. -/
def noFailO : RPath → Option OSErr := fun _ => none

/-! ### Path order lemmas -/

theorem leadsTo_refl (p : RPath) : leadsTo p p = true := by
  induction p with
  | nil => rfl
  | cons a as ih => simp [leadsTo, ih]

theorem leadsTo_iff_append {d p : RPath} : leadsTo d p = true ↔ ∃ q, p = d ++ q := by
  induction d generalizing p with
  | nil => simp [leadsTo]
  | cons a as ih =>
    cases p with
    | nil => simp [leadsTo]
    | cons b bs =>
      simp only [leadsTo, Bool.and_eq_true, decide_eq_true_eq, ih, List.cons_append,
        List.cons.injEq]
      constructor
      · rintro ⟨h1, q, h2⟩
        exact ⟨q, h1.symm, h2⟩
      · rintro ⟨q, h1, h2⟩
        exact ⟨h1.symm, q, h2⟩

theorem leadsTo_append_self (d q : RPath) : leadsTo d (d ++ q) = true :=
  leadsTo_iff_append.2 ⟨q, rfl⟩

theorem leadsTo_trans {a b c : RPath} (h1 : leadsTo a b = true) (h2 : leadsTo b c = true) :
    leadsTo a c = true := by
  obtain ⟨q1, rfl⟩ := leadsTo_iff_append.1 h1
  obtain ⟨q2, rfl⟩ := leadsTo_iff_append.1 h2
  exact leadsTo_iff_append.2 ⟨q1 ++ q2, by simp⟩

theorem leadsTo_length {a b : RPath} (h : leadsTo a b = true) : a.length ≤ b.length := by
  obtain ⟨q, rfl⟩ := leadsTo_iff_append.1 h
  simp

theorem leadsTo_antisymm {a b : RPath} (h1 : leadsTo a b = true) (h2 : leadsTo b a = true) :
    a = b := by
  obtain ⟨q, rfl⟩ := leadsTo_iff_append.1 h1
  have := leadsTo_length h2
  simp only [List.length_append] at this
  have hq : q = [] := List.eq_nil_of_length_eq_zero (by omega)
  simp [hq]

theorem leadsTo_nil (p : RPath) : leadsTo [] p = true := by
  cases p <;> rfl

theorem leadsTo_comparable {a b c : RPath} (h1 : leadsTo a c = true) (h2 : leadsTo b c = true) :
    leadsTo a b = true ∨ leadsTo b a = true := by
  induction a generalizing b c with
  | nil => exact Or.inl (leadsTo_nil b)
  | cons x xs ih =>
    cases b with
    | nil => exact Or.inr (leadsTo_nil (x :: xs))
    | cons y ys =>
      cases c with
      | nil => simp [leadsTo] at h1
      | cons z zs =>
        simp only [leadsTo, Bool.and_eq_true, decide_eq_true_eq] at h1 h2
        rcases ih h1.2 h2.2 with h | h
        · exact Or.inl (by simp [leadsTo, h1.1.trans h2.1.symm, h])
        · exact Or.inr (by simp [leadsTo, h2.1.trans h1.1.symm, h])

theorem leadsTo_take (p : RPath) (n : ℕ) : leadsTo (p.take n) p = true :=
  leadsTo_iff_append.2 ⟨p.drop n, (List.take_append_drop n p).symm⟩

theorem eq_take_of_leadsTo {a b : RPath} (h : leadsTo a b = true) : a = b.take a.length := by
  obtain ⟨q, rfl⟩ := leadsTo_iff_append.1 h
  simp

theorem mem_pfxs {q p : RPath} : q ∈ pfxs p ↔ q ≠ [] ∧ leadsTo q p = true := by
  simp only [pfxs, List.mem_map, List.mem_range]
  constructor
  · rintro ⟨i, hi, rfl⟩
    refine ⟨?_, leadsTo_take p (i + 1)⟩
    have : (p.take (i + 1)).length = i + 1 := by
      rw [List.length_take]; omega
    intro h
    rw [h] at this
    simp at this
  · rintro ⟨hne, hlt⟩
    have hlen : q.length ≤ p.length := leadsTo_length hlt
    have hpos : 1 ≤ q.length := by
      cases q with
      | nil => exact absurd rfl hne
      | cons _ _ => simp
    refine ⟨q.length - 1, by omega, ?_⟩
    have harith : q.length - 1 + 1 = q.length := by omega
    rw [harith]
    exact (eq_take_of_leadsTo hlt).symm

theorem mem_pfxs_dropLast {q p : RPath} :
    q ∈ pfxs p.dropLast ↔ q ≠ [] ∧ leadsTo q p = true ∧ q ≠ p := by
  rw [mem_pfxs]
  constructor
  · rintro ⟨hne, hlt⟩
    have hsub : leadsTo p.dropLast p = true := by
      rw [List.dropLast_eq_take]
      exact leadsTo_take p (p.length - 1)
    have hlen : q.length ≤ p.dropLast.length := leadsTo_length hlt
    rw [List.length_dropLast] at hlen
    have hqlen : 1 ≤ q.length := by
      cases q with
      | nil => exact absurd rfl hne
      | cons _ _ => simp
    refine ⟨hne, leadsTo_trans hlt hsub, ?_⟩
    intro h
    subst h
    omega
  · rintro ⟨hne, hlt, hqp⟩
    have hlen : q.length ≤ p.length := leadsTo_length hlt
    have hlt' : q.length < p.length := by
      rcases Nat.eq_or_lt_of_le hlen with h | h
      · exfalso
        apply hqp
        rw [eq_take_of_leadsTo hlt, h, List.take_length]
      · exact h
    refine ⟨hne, ?_⟩
    rw [List.dropLast_eq_take]
    have : q = p.take q.length := eq_take_of_leadsTo hlt
    rw [this]
    have : p.take q.length = (p.take (p.length - 1)).take q.length := by
      rw [List.take_take]
      congr 1
      omega
    rw [← List.dropLast_eq_take] at this
    rw [this, List.dropLast_eq_take]
    exact leadsTo_take _ _

theorem child_shape {q d : RPath} (hne : q ≠ []) (hd : q.dropLast = d) :
    ∃ s, q = d ++ [s] := by
  refine ⟨q.getLast hne, ?_⟩
  rw [← hd]
  exact (List.dropLast_append_getLast hne).symm

theorem self_mem_pfxs {p : RPath} (h : p ≠ []) : p ∈ pfxs p :=
  mem_pfxs.2 ⟨h, leadsTo_refl p⟩

/-! ### Lookup and update lemmas -/

instance : Inhabited EMeta := ⟨⟨false, 0, ""⟩⟩

theorem lookupFS_cons (q : RPath) (m : EMeta) (rest : FS) (p : RPath) :
    lookupFS ((q, m) :: rest) p = if q = p then some m else lookupFS rest p := rfl

theorem lookupFS_eq_none {fs : FS} {p : RPath} :
    lookupFS fs p = none ↔ p ∉ fs.map Prod.fst := by
  induction fs with
  | nil => simp [lookupFS]
  | cons e rest ih =>
    obtain ⟨q, m⟩ := e
    rw [lookupFS_cons]
    by_cases h : q = p
    · subst h
      simp
    · simp [h, ih, Ne.symm h]

theorem lookupFS_mem {fs : FS} {p : RPath} {m : EMeta} (h : lookupFS fs p = some m) :
    (p, m) ∈ fs := by
  induction fs with
  | nil => simp [lookupFS] at h
  | cons e rest ih =>
    obtain ⟨q, m'⟩ := e
    rw [lookupFS_cons] at h
    by_cases hq : q = p
    · subst hq
      rw [if_pos rfl] at h
      injection h with h
      simp [h]
    · rw [if_neg hq] at h
      exact List.mem_cons_of_mem _ (ih h)

theorem existsP_iff_mem {fs : FS} {p : RPath} :
    existsP fs p = true ↔ p ∈ fs.map Prod.fst := by
  unfold existsP
  cases hl : lookupFS fs p with
  | none =>
    simp only [Option.isSome_none, Bool.false_eq_true, false_iff]
    exact lookupFS_eq_none.1 hl
  | some m =>
    simp only [Option.isSome_some, true_iff]
    exact List.mem_map.2 ⟨(p, m), lookupFS_mem hl, rfl⟩

theorem lookupFS_of_nodup {fs : FS} {p : RPath} {m : EMeta}
    (hn : (fs.map Prod.fst).Nodup) (h : (p, m) ∈ fs) : lookupFS fs p = some m := by
  induction fs with
  | nil => simp at h
  | cons e rest ih =>
    obtain ⟨q, m'⟩ := e
    simp only [List.map_cons, List.nodup_cons] at hn
    rw [lookupFS_cons]
    rcases List.mem_cons.1 h with h1 | h1
    · injection h1 with ha hb
      subst ha
      subst hb
      rw [if_pos rfl]
    · have hqp : q ≠ p := by
        intro h2
        subst h2
        exact hn.1 (List.mem_map.2 ⟨(q, m), h1, rfl⟩)
      rw [if_neg hqp]
      exact ih hn.2 h1

theorem lookupFS_append (l1 l2 : FS) (p : RPath) :
    lookupFS (l1 ++ l2) p =
      match lookupFS l1 p with
      | some m => some m
      | none => lookupFS l2 p := by
  induction l1 with
  | nil => simp [lookupFS]
  | cons e rest ih =>
    obtain ⟨q, m⟩ := e
    rw [List.cons_append, lookupFS_cons, lookupFS_cons]
    by_cases h : q = p
    · rw [if_pos h, if_pos h]
    · rw [if_neg h, if_neg h, ih]

theorem lookupFS_filterKey (fs : FS) (g : RPath → Bool) (p : RPath) :
    lookupFS (fs.filter (fun e => g e.1)) p =
      if g p then lookupFS fs p else none := by
  induction fs with
  | nil => simp [lookupFS]
  | cons e rest ih =>
    obtain ⟨q, m⟩ := e
    rw [List.filter_cons]
    by_cases hq : q = p
    · subst hq
      by_cases hg : g q
      · simp [hg, lookupFS_cons]
      · simp [hg, ih]
    · by_cases hg : g q
      · simp [hg, lookupFS_cons, hq, ih]
      · simp [hg, ih, lookupFS_cons, hq]

theorem map_fst_filterKey (fs : FS) (g : RPath → Bool) :
    (fs.filter (fun e => g e.1)).map Prod.fst = (fs.map Prod.fst).filter g := by
  induction fs with
  | nil => rfl
  | cons e rest ih =>
    rw [List.filter_cons, List.map_cons, List.filter_cons]
    by_cases hg : g e.1
    · simp only [hg, if_true, List.map_cons, ih]
    · simp only [hg, Bool.false_eq_true, if_false, ih]

theorem lookup_mapReplace_self {fs : FS} {p : RPath} (m : EMeta)
    (h : p ∈ fs.map Prod.fst) :
    lookupFS (fs.map (fun e => if e.1 = p then (p, m) else e)) p = some m := by
  induction fs with
  | nil => simp at h
  | cons e rest ih =>
    obtain ⟨q, m'⟩ := e
    by_cases hq : q = p
    · subst hq
      simp [lookupFS_cons]
    · simp only [List.map_cons, List.mem_cons] at h
      rcases h with h | h
      · exact absurd h.symm hq
      · simp [hq, lookupFS_cons, ih h]

theorem lookup_mapReplace_ne {fs : FS} {q p : RPath} (m : EMeta) (h : q ≠ p) :
    lookupFS (fs.map (fun e => if e.1 = q then (q, m) else e)) p = lookupFS fs p := by
  induction fs with
  | nil => rfl
  | cons e rest ih =>
    obtain ⟨r, m'⟩ := e
    by_cases hr : r = q
    · subst hr
      simp [lookupFS_cons, h, ih]
    · by_cases hrp : r = p
      · subst hrp
        simp [hr, lookupFS_cons]
      · simp [hr, hrp, lookupFS_cons, ih]

theorem lookup_setF_self (fs : FS) (p : RPath) (m : EMeta) :
    lookupFS (setF fs p m) p = some m := by
  by_cases h : existsP fs p
  · simp only [setF, h, if_true]
    exact lookup_mapReplace_self m (existsP_iff_mem.1 h)
  · simp only [setF, h, Bool.false_eq_true, if_false]
    rw [lookupFS_append]
    have hnone : lookupFS fs p = none := by
      rw [lookupFS_eq_none]
      intro hmem
      rw [existsP_iff_mem.2 hmem] at h
      exact h rfl
    rw [hnone]
    simp [lookupFS_cons]

theorem lookup_setF_ne (fs : FS) {q : RPath} (m : EMeta) {p : RPath} (h : q ≠ p) :
    lookupFS (setF fs q m) p = lookupFS fs p := by
  by_cases hex : existsP fs q
  · simp only [setF, hex, if_true]
    exact lookup_mapReplace_ne m h
  · simp only [setF, hex, Bool.false_eq_true, if_false]
    rw [lookupFS_append]
    cases hl : lookupFS fs p with
    | some m' => rfl
    | none => simp [lookupFS_cons, h, lookupFS]

theorem paths_setF_exists {fs : FS} {p : RPath} (m : EMeta) (h : existsP fs p = true) :
    (setF fs p m).map Prod.fst = fs.map Prod.fst := by
  simp only [setF, h, if_true]
  rw [List.map_map]
  apply List.map_congr_left
  intro e _
  by_cases he : e.1 = p
  · simp [he]
  · simp [he]

theorem paths_setF_new {fs : FS} {p : RPath} (m : EMeta) (h : existsP fs p = false) :
    (setF fs p m).map Prod.fst = fs.map Prod.fst ++ [p] := by
  simp [setF, h]

theorem lookup_append_single (fs : FS) (q : RPath) (m : EMeta) (p : RPath) :
    lookupFS (fs ++ [(q, m)]) p =
      match lookupFS fs p with
      | some m' => some m'
      | none => if q = p then some m else none := by
  rw [lookupFS_append]
  cases lookupFS fs p <;> simp [lookupFS_cons, lookupFS]

theorem existsP_false_iff {fs : FS} {p : RPath} :
    existsP fs p = false ↔ lookupFS fs p = none := by
  unfold existsP
  cases lookupFS fs p <;> simp

theorem isDirP_setF (fs : FS) (p : RPath) (m : EMeta) (q : RPath) :
    isDirP (setF fs p m) q = if q = p then m.isDir else isDirP fs q := by
  by_cases h : q = p
  · subst h
    simp [isDirP, lookup_setF_self]
  · unfold isDirP
    rw [lookup_setF_ne fs m (Ne.symm h), if_neg h]

/-! ### Well-formedness -/

theorem wfFS_iff {fs : FS} :
    wfFS fs = true ↔
      ((fs.map Prod.fst).Nodup ∧ (∀ e ∈ fs, e.1 ≠ []) ∧
        ∀ e ∈ fs, ∀ q ∈ pfxs e.1.dropLast, isDirP fs q = true) := by
  simp [wfFS, List.all_eq_true, decide_eq_true_eq, and_assoc]

theorem wf_nodup {fs : FS} (h : wfFS fs = true) : (fs.map Prod.fst).Nodup :=
  (wfFS_iff.1 h).1

theorem wf_ne_nil {fs : FS} (h : wfFS fs = true) {e : RPath × EMeta} (he : e ∈ fs) :
    e.1 ≠ [] :=
  (wfFS_iff.1 h).2.1 e he

theorem wf_anc {fs : FS} (h : wfFS fs = true) {p : RPath} {m : EMeta}
    (hm : (p, m) ∈ fs) {q : RPath} (hq : q ≠ []) (hlt : leadsTo q p = true)
    (hqp : q ≠ p) : isDirP fs q = true :=
  (wfFS_iff.1 h).2.2 (p, m) hm q (mem_pfxs_dropLast.2 ⟨hq, hlt, hqp⟩)

theorem wf_anc_path {fs : FS} (h : wfFS fs = true) {p : RPath}
    (hp : p ∈ fs.map Prod.fst) {q : RPath} (hq : q ≠ []) (hlt : leadsTo q p = true)
    (hqp : q ≠ p) : isDirP fs q = true := by
  obtain ⟨e, he, rfl⟩ := List.mem_map.1 hp
  exact wf_anc h (by simpa using he) hq hlt hqp

theorem wf_path_ne_nil {fs : FS} (h : wfFS fs = true) {p : RPath}
    (hp : p ∈ fs.map Prod.fst) : p ≠ [] := by
  obtain ⟨e, he, rfl⟩ := List.mem_map.1 hp
  exact wf_ne_nil h he

/-- In a well-formed tree nothing lies strictly below a missing path. -/
theorem not_under_missing {fs : FS} (h : wfFS fs = true) {p : RPath} (hp : p ≠ [])
    (hnone : lookupFS fs p = none) {q : RPath} (hq : q ∈ fs.map Prod.fst)
    (hlt : leadsTo p q = true) : False := by
  by_cases hpq : p = q
  · subst hpq
    exact (lookupFS_eq_none.1 hnone) hq
  · have hdir := wf_anc_path h hq hp hlt hpq
    unfold isDirP at hdir
    rw [hnone] at hdir
    simp at hdir

theorem isDirP_of_mem_nodup {fs : FS} (hn : (fs.map Prod.fst).Nodup) {p : RPath}
    {m : EMeta} (hm : (p, m) ∈ fs) : isDirP fs p = m.isDir := by
  unfold isDirP
  rw [lookupFS_of_nodup hn hm]

theorem wf_append_new {fs : FS} {p : RPath} (m : EMeta) (h : wfFS fs = true)
    (hne : p ≠ []) (hnp : lookupFS fs p = none)
    (hanc : ∀ q ∈ pfxs p.dropLast, isDirP fs q = true) :
    wfFS (fs ++ [(p, m)]) = true := by
  obtain ⟨hn, hnil, hancs⟩ := wfFS_iff.1 h
  have hmem : p ∉ fs.map Prod.fst := lookupFS_eq_none.1 hnp
  have hdir_mono : ∀ q, isDirP fs q = true → isDirP (fs ++ [(p, m)]) q = true := by
    intro q hq
    unfold isDirP at hq ⊢
    rw [lookup_append_single]
    cases hl : lookupFS fs q with
    | some m' => rw [hl] at hq; simpa using hq
    | none => rw [hl] at hq; simp at hq
  refine wfFS_iff.2 ⟨?_, ?_, ?_⟩
  · rw [List.map_append]
    simp only [List.map_cons, List.map_nil]
    rw [List.nodup_append]
    exact ⟨hn, List.nodup_singleton p, by simpa using hmem⟩
  · intro e he
    rcases List.mem_append.1 he with he | he
    · exact hnil e he
    · simp only [List.mem_singleton] at he
      subst he
      exact hne
  · intro e he q hq
    rcases List.mem_append.1 he with he | he
    · exact hdir_mono q (hancs e he q hq)
    · simp only [List.mem_singleton] at he
      subst he
      exact hdir_mono q (hanc q hq)

theorem wf_setF_overwrite {fs : FS} {p : RPath} {old m : EMeta} (h : wfFS fs = true)
    (hold : lookupFS fs p = some old) (hkind : m.isDir = old.isDir) :
    wfFS (setF fs p m) = true := by
  obtain ⟨hn, hnil, hancs⟩ := wfFS_iff.1 h
  have hex : existsP fs p = true := by unfold existsP; rw [hold]; rfl
  have hpaths : (setF fs p m).map Prod.fst = fs.map Prod.fst := paths_setF_exists m hex
  have hdir : ∀ q, isDirP (setF fs p m) q = isDirP fs q := by
    intro q
    rw [isDirP_setF]
    by_cases hq : q = p
    · subst hq
      unfold isDirP
      rw [hold, if_pos rfl, hkind]
    · rw [if_neg hq]
  refine wfFS_iff.2 ⟨?_, ?_, ?_⟩
  · rw [hpaths]; exact hn
  · intro e he
    have : e.1 ∈ (setF fs p m).map Prod.fst := List.mem_map.2 ⟨e, he, rfl⟩
    rw [hpaths] at this
    exact wf_path_ne_nil h this
  · intro e he q hq
    rw [hdir]
    have hmem : e.1 ∈ fs.map Prod.fst := by
      have : e.1 ∈ (setF fs p m).map Prod.fst := List.mem_map.2 ⟨e, he, rfl⟩
      rwa [hpaths] at this
    rw [mem_pfxs_dropLast] at hq
    exact wf_anc_path h hmem hq.1 hq.2.1 hq.2.2

/-! ### mkdir lemmas -/

theorem pfxs_nil : pfxs [] = [] := rfl

theorem mkdirP_nil (fs : FS) : mkdirP fs [] = .ok fs := rfl

theorem take_dropLast {p : RPath} {i : ℕ} (h : i + 1 ≤ p.length - 1) :
    p.take (i + 1) = p.dropLast.take (i + 1) := by
  rw [List.dropLast_eq_take, List.take_take, Nat.min_eq_left h]

theorem pfxs_eq_append {p : RPath} (h : p ≠ []) :
    pfxs p = pfxs p.dropLast ++ [p] := by
  have hlen : 1 ≤ p.length := by
    cases p with
    | nil => exact absurd rfl h
    | cons _ _ => simp
  unfold pfxs
  rw [List.length_dropLast]
  have hsucc : p.length = (p.length - 1) + 1 := by omega
  rw [hsucc, List.range_succ, List.map_append]
  congr 1
  · apply List.map_congr_left
    intro i hi
    rw [List.mem_range] at hi
    show p.take (i + 1) = p.dropLast.take (i + 1)
    exact take_dropLast (by omega)
  · simp only [List.map_cons, List.map_nil]
    congr 1
    rw [← hsucc, List.take_length]

theorem mkdirP_eq {fs : FS} {p : RPath} (h : p ≠ []) :
    mkdirP fs p =
      match mkdirP fs p.dropLast with
      | .error e => .error e
      | .ok fs1 => mkdirStep fs1 p := by
  unfold mkdirP
  rw [pfxs_eq_append h, List.foldlM_append]
  cases List.foldlM mkdirStep fs (pfxs p.dropLast) with
  | error e => rfl
  | ok fs1 =>
    show List.foldlM mkdirStep fs1 [p] = mkdirStep fs1 p
    rw [List.foldlM_cons]
    cases hs : mkdirStep fs1 p with
    | error e => rfl
    | ok fs2 => rfl

theorem mkdirStep_ok_cases {fs fs' : FS} {q : RPath} (h : mkdirStep fs q = .ok fs') :
    (isDirP fs q = true ∧ fs' = fs) ∨
      (existsP fs q = false ∧ fs' = fs ++ [(q, dirMeta)]) := by
  unfold mkdirStep at h
  by_cases hd : isDirP fs q
  · rw [if_pos hd] at h
    injection h with h
    exact Or.inl ⟨hd, h.symm⟩
  · rw [if_neg hd] at h
    by_cases hex : existsP fs q
    · rw [if_pos hex] at h
      exact absurd h (by simp)
    · rw [if_neg hex] at h
      injection h with h
      exact Or.inr ⟨by simpa using hex, h.symm⟩

theorem mkdirStep_keeps {fs fs' : FS} {q : RPath} (h : mkdirStep fs q = .ok fs')
    {r : RPath} {m : EMeta} (hr : lookupFS fs r = some m) : lookupFS fs' r = some m := by
  rcases mkdirStep_ok_cases h with ⟨_, rfl⟩ | ⟨_, rfl⟩
  · exact hr
  · rw [lookup_append_single, hr]

theorem mkdirStep_frame {fs fs' : FS} {q : RPath} (h : mkdirStep fs q = .ok fs')
    {r : RPath} (hr : r ≠ q) : lookupFS fs' r = lookupFS fs r := by
  rcases mkdirStep_ok_cases h with ⟨_, rfl⟩ | ⟨_, rfl⟩
  · rfl
  · rw [lookup_append_single]
    cases lookupFS fs r with
    | some m => rfl
    | none => simp [Ne.symm hr]

theorem mkdirStep_isDir_mono {fs fs' : FS} {q : RPath} (h : mkdirStep fs q = .ok fs')
    {r : RPath} (hr : isDirP fs r = true) : isDirP fs' r = true := by
  unfold isDirP at hr ⊢
  cases hl : lookupFS fs r with
  | some m =>
    rw [hl] at hr
    rw [mkdirStep_keeps h hl]
    exact hr
  | none => rw [hl] at hr; simp at hr

theorem mkdirStep_self {fs fs' : FS} {q : RPath} (h : mkdirStep fs q = .ok fs') :
    isDirP fs' q = true := by
  rcases mkdirStep_ok_cases h with ⟨hd, rfl⟩ | ⟨hex, rfl⟩
  · exact hd
  · unfold isDirP
    rw [lookup_append_single, existsP_false_iff.1 hex]
    simp [dirMeta]

theorem foldlM_mkdir_ok_cons {fs fs' : FS} {a : RPath} {L : List RPath}
    (h : List.foldlM mkdirStep fs (a :: L) = .ok fs') :
    ∃ fs1, mkdirStep fs a = .ok fs1 ∧ List.foldlM mkdirStep fs1 L = .ok fs' := by
  rw [List.foldlM_cons] at h
  cases hs : mkdirStep fs a with
  | error e =>
    rw [hs] at h
    exact absurd h (by intro hc; exact Except.noConfusion hc)
  | ok fs1 =>
    rw [hs] at h
    exact ⟨fs1, rfl, h⟩

theorem foldlM_mkdir_nil {fs fs' : FS} (h : List.foldlM mkdirStep fs [] = .ok fs') :
    fs' = fs := by
  have h' : Except.ok (ε := SyncErr) fs = .ok fs' := h
  injection h' with h'
  exact h'.symm

theorem foldlM_mkdir_keeps {L : List RPath} : ∀ {fs fs' : FS},
    List.foldlM mkdirStep fs L = .ok fs' →
    ∀ {r : RPath} {m : EMeta}, lookupFS fs r = some m → lookupFS fs' r = some m := by
  induction L with
  | nil =>
    intro fs fs' h r m hr
    rw [foldlM_mkdir_nil h]
    exact hr
  | cons a L ih =>
    intro fs fs' h r m hr
    obtain ⟨fs1, hs, hrest⟩ := foldlM_mkdir_ok_cons h
    exact ih hrest (mkdirStep_keeps hs hr)

theorem foldlM_mkdir_frame {L : List RPath} : ∀ {fs fs' : FS},
    List.foldlM mkdirStep fs L = .ok fs' →
    ∀ {r : RPath}, r ∉ L → lookupFS fs' r = lookupFS fs r := by
  induction L with
  | nil =>
    intro fs fs' h r _
    rw [foldlM_mkdir_nil h]
  | cons a L ih =>
    intro fs fs' h r hr
    obtain ⟨fs1, hs, hrest⟩ := foldlM_mkdir_ok_cons h
    have hra : r ≠ a := fun hc => hr (hc ▸ List.mem_cons_self a L)
    have hrL : r ∉ L := fun hc => hr (List.mem_cons_of_mem a hc)
    rw [ih hrest hrL, mkdirStep_frame hs hra]

theorem foldlM_mkdir_isDir_mono {L : List RPath} : ∀ {fs fs' : FS},
    List.foldlM mkdirStep fs L = .ok fs' →
    ∀ {r : RPath}, isDirP fs r = true → isDirP fs' r = true := by
  induction L with
  | nil =>
    intro fs fs' h r hr
    rw [foldlM_mkdir_nil h]
    exact hr
  | cons a L ih =>
    intro fs fs' h r hr
    obtain ⟨fs1, hs, hrest⟩ := foldlM_mkdir_ok_cons h
    exact ih hrest (mkdirStep_isDir_mono hs hr)

theorem foldlM_mkdir_isDir {L : List RPath} : ∀ {fs fs' : FS},
    List.foldlM mkdirStep fs L = .ok fs' →
    ∀ {q : RPath}, q ∈ L → isDirP fs' q = true := by
  induction L with
  | nil => intro fs fs' _ q hq; simp at hq
  | cons a L ih =>
    intro fs fs' h q hq
    obtain ⟨fs1, hs, hrest⟩ := foldlM_mkdir_ok_cons h
    rcases List.mem_cons.1 hq with hq | hq
    · subst hq
      exact foldlM_mkdir_isDir_mono hrest (mkdirStep_self hs)
    · exact ih hrest hq

theorem foldlM_mkdir_noop {L : List RPath} : ∀ {fs : FS},
    (∀ q ∈ L, isDirP fs q = true) → List.foldlM mkdirStep fs L = .ok fs := by
  induction L with
  | nil => intro fs _; rfl
  | cons a L ih =>
    intro fs hall
    rw [List.foldlM_cons]
    have hs : mkdirStep fs a = .ok fs := by
      unfold mkdirStep
      rw [if_pos (hall a (List.mem_cons_self a L))]
    rw [hs]
    exact ih (fun q hq => hall q (List.mem_cons_of_mem a hq))

theorem mkdirP_keeps {fs fs' : FS} {p : RPath} (h : mkdirP fs p = .ok fs')
    {r : RPath} {m : EMeta} (hr : lookupFS fs r = some m) : lookupFS fs' r = some m :=
  foldlM_mkdir_keeps h hr

theorem mkdirP_frame {fs fs' : FS} {p : RPath} (h : mkdirP fs p = .ok fs')
    {r : RPath} (hr : r ∉ pfxs p) : lookupFS fs' r = lookupFS fs r :=
  foldlM_mkdir_frame h hr

theorem mkdirP_isDir {fs fs' : FS} {p : RPath} (h : mkdirP fs p = .ok fs')
    {q : RPath} (hq : q ∈ pfxs p) : isDirP fs' q = true :=
  foldlM_mkdir_isDir h hq

theorem mkdirP_isDir_mono {fs fs' : FS} {p : RPath} (h : mkdirP fs p = .ok fs')
    {r : RPath} (hr : isDirP fs r = true) : isDirP fs' r = true :=
  foldlM_mkdir_isDir_mono h hr

theorem mkdirP_noop {fs : FS} {p : RPath}
    (hall : ∀ q ∈ pfxs p, isDirP fs q = true) : mkdirP fs p = .ok fs :=
  foldlM_mkdir_noop hall

theorem mkdirP_wf_aux : ∀ (n : ℕ) (p : RPath), p.length ≤ n → ∀ {fs fs' : FS},
    wfFS fs = true → mkdirP fs p = .ok fs' → wfFS fs' = true := by
  intro n
  induction n with
  | zero =>
    intro p hp fs fs' hwf h
    have hnil : p = [] := by
      cases p with
      | nil => rfl
      | cons _ _ => simp at hp
    subst hnil
    rw [mkdirP_nil] at h
    injection h with h
    rw [← h]
    exact hwf
  | succ n ih =>
    intro p hp fs fs' hwf h
    by_cases hne : p = []
    · subst hne
      rw [mkdirP_nil] at h
      injection h with h
      rw [← h]
      exact hwf
    · rw [mkdirP_eq hne] at h
      cases hm : mkdirP fs p.dropLast with
      | error e => rw [hm] at h; exact absurd h (by simp)
      | ok fs1 =>
        rw [hm] at h
        have hwf1 : wfFS fs1 = true :=
          ih p.dropLast (by rw [List.length_dropLast]; omega) hwf hm
        rcases mkdirStep_ok_cases h with ⟨_, rfl⟩ | ⟨hex, rfl⟩
        · exact hwf1
        · exact wf_append_new dirMeta hwf1 hne (existsP_false_iff.1 hex)
            (fun q hq => mkdirP_isDir hm hq)

theorem mkdirP_wf {fs fs' : FS} {p : RPath} (hwf : wfFS fs = true)
    (h : mkdirP fs p = .ok fs') : wfFS fs' = true :=
  mkdirP_wf_aux p.length p le_rfl hwf h

/-! ### Copy step lemmas -/

theorem pfxs_dropLast_sub {q p : RPath} (h : q ∈ pfxs p.dropLast) : q ∈ pfxs p := by
  rw [mem_pfxs_dropLast] at h
  exact mem_pfxs.2 ⟨h.1, h.2.1⟩

theorem self_not_mem_pfxs_dropLast {p : RPath} : p ∉ pfxs p.dropLast := by
  intro h
  exact (mem_pfxs_dropLast.1 h).2.2 rfl

theorem inner_ne_self {rel : RPath} : rel ++ [lastSegD rel] ≠ rel := by
  intro h
  have := congrArg List.length h
  simp at this

theorem tryCopy_frame (o : RPath → Option OSErr) (fs : FS) (rel : RPath) (m : EMeta)
    {p : RPath} (h1 : p ≠ rel) (h2 : p ≠ rel ++ [lastSegD rel]) :
    lookupFS (tryCopy o fs rel m) p = lookupFS fs p := by
  unfold tryCopy
  cases o rel with
  | some e => rfl
  | none =>
    by_cases hd : isDirP fs rel
    · rw [if_pos hd]
      by_cases hin : isDirP fs (rel ++ [lastSegD rel])
      · rw [if_pos hin]
      · rw [if_neg hin]
        exact lookup_setF_ne fs _ (Ne.symm h2)
    · rw [if_neg hd]
      exact lookup_setF_ne fs _ (Ne.symm h1)

theorem tryCopy_isDir_mono (o : RPath → Option OSErr) (fs : FS) (rel : RPath)
    (m : EMeta) {p : RPath} (hp : isDirP fs p = true) :
    isDirP (tryCopy o fs rel m) p = true := by
  unfold tryCopy
  cases o rel with
  | some e => exact hp
  | none =>
    by_cases hd : isDirP fs rel
    · rw [if_pos hd]
      by_cases hin : isDirP fs (rel ++ [lastSegD rel])
      · rw [if_pos hin]; exact hp
      · rw [if_neg hin, isDirP_setF]
        have hpin : p ≠ rel ++ [lastSegD rel] := by
          intro hc; subst hc; rw [hp] at hin; exact hin rfl
        rw [if_neg hpin]; exact hp
    · rw [if_neg hd, isDirP_setF]
      have hpr : p ≠ rel := by
        intro hc; subst hc; rw [hp] at hd; exact hd rfl
      rw [if_neg hpr]; exact hp

theorem tryCopy_wf (o : RPath → Option OSErr) {fs : FS} (rel : RPath) (m : EMeta)
    (hwf : wfFS fs = true) (hne : rel ≠ [])
    (hanc : ∀ q ∈ pfxs rel.dropLast, isDirP fs q = true) :
    wfFS (tryCopy o fs rel m) = true := by
  unfold tryCopy
  cases o rel with
  | some e => exact hwf
  | none =>
    by_cases hd : isDirP fs rel
    · rw [if_pos hd]
      by_cases hin : isDirP fs (rel ++ [lastSegD rel])
      · rw [if_pos hin]; exact hwf
      · rw [if_neg hin]
        by_cases hex : existsP fs (rel ++ [lastSegD rel])
        · obtain ⟨old, hold⟩ := Option.isSome_iff_exists.1 hex
          have holdk : old.isDir = false := by
            unfold isDirP at hin
            rw [hold] at hin
            simpa using hin
          exact wf_setF_overwrite hwf hold holdk.symm
        · have hset : setF fs (rel ++ [lastSegD rel]) ⟨false, m.mtime, m.content⟩ =
              fs ++ [(rel ++ [lastSegD rel], ⟨false, m.mtime, m.content⟩)] := by
            simp [setF, hex]
          rw [hset]
          apply wf_append_new _ hwf (by simp) (existsP_false_iff.1 (by simpa using hex))
          intro q hq
          rw [List.dropLast_concat] at hq
          rw [pfxs_eq_append hne, List.mem_append] at hq
          rcases hq with hq | hq
          · exact hanc q hq
          · simp only [List.mem_singleton] at hq
            subst hq
            exact hd
    · rw [if_neg hd]
      by_cases hex : existsP fs rel
      · obtain ⟨old, hold⟩ := Option.isSome_iff_exists.1 hex
        have holdk : old.isDir = false := by
          unfold isDirP at hd
          rw [hold] at hd
          simpa using hd
        exact wf_setF_overwrite hwf hold holdk.symm
      · have hset : setF fs rel ⟨false, m.mtime, m.content⟩ =
            fs ++ [(rel, ⟨false, m.mtime, m.content⟩)] := by
          simp [setF, hex]
        rw [hset]
        exact wf_append_new _ hwf hne (existsP_false_iff.1 (by simpa using hex)) hanc

/-! ### Source-entry step lemmas -/

theorem srcStep_err_fs {o : RPath → Option OSErr} {t : FS} {rel : RPath} {m : EMeta}
    {e : SyncErr} (h : (srcStep o t rel m).err = some e) :
    (srcStep o t rel m).fs = t := by
  unfold srcStep at h ⊢
  by_cases hd : m.isDir
  · rw [if_pos hd] at h ⊢
    cases hm : mkdirP t rel with
    | error e' => rfl
    | ok t1 => rw [hm] at h; simp at h
  · rw [if_neg hd] at h ⊢
    by_cases hskip : existsP t rel && !outdated m.mtime (mtimeD t rel)
    · rw [if_pos hskip] at h; simp at h
    · rw [if_neg hskip] at h ⊢
      cases hm : mkdirP t rel.dropLast with
      | error e' => rfl
      | ok t1 => rw [hm] at h; simp at h

theorem srcStep_wf {o : RPath → Option OSErr} {t : FS} {rel : RPath} {m : EMeta}
    (hwf : wfFS t = true) (hne : rel ≠ []) :
    wfFS (srcStep o t rel m).fs = true := by
  unfold srcStep
  by_cases hd : m.isDir
  · rw [if_pos hd]
    cases hm : mkdirP t rel with
    | error e => exact hwf
    | ok t1 => exact mkdirP_wf hwf hm
  · rw [if_neg hd]
    by_cases hskip : existsP t rel && !outdated m.mtime (mtimeD t rel)
    · rw [if_pos hskip]; exact hwf
    · rw [if_neg hskip]
      cases hm : mkdirP t rel.dropLast with
      | error e => exact hwf
      | ok t1 =>
        exact tryCopy_wf o rel m (mkdirP_wf hwf hm) hne
          (fun q hq => mkdirP_isDir hm hq)

theorem srcStep_frame {o : RPath → Option OSErr} {t : FS} {rel : RPath} {m : EMeta}
    {p : RPath} (h1 : leadsTo p rel = false)
    (h2 : m.isDir = false → p ≠ rel ++ [lastSegD rel]) :
    lookupFS (srcStep o t rel m).fs p = lookupFS t p := by
  have hnp : p ∉ pfxs rel := by
    intro hc
    rw [(mem_pfxs.1 hc).2] at h1
    exact absurd h1 (by simp)
  have hpr : p ≠ rel := by
    intro hc
    subst hc
    rw [leadsTo_refl] at h1
    exact absurd h1 (by simp)
  unfold srcStep
  by_cases hd : m.isDir
  · rw [if_pos hd]
    cases hm : mkdirP t rel with
    | error e => rfl
    | ok t1 => exact mkdirP_frame hm hnp
  · rw [if_neg hd]
    by_cases hskip : existsP t rel && !outdated m.mtime (mtimeD t rel)
    · rw [if_pos hskip]
    · rw [if_neg hskip]
      cases hm : mkdirP t rel.dropLast with
      | error e => rfl
      | ok t1 =>
        rw [tryCopy_frame o t1 rel m hpr (h2 (by simpa using hd)),
          mkdirP_frame hm (fun hc => hnp (pfxs_dropLast_sub hc))]

theorem srcStep_isDir_mono {o : RPath → Option OSErr} {t : FS} {rel : RPath}
    {m : EMeta} {p : RPath} (hp : isDirP t p = true) :
    isDirP (srcStep o t rel m).fs p = true := by
  unfold srcStep
  by_cases hd : m.isDir
  · rw [if_pos hd]
    cases hm : mkdirP t rel with
    | error e => exact hp
    | ok t1 => exact mkdirP_isDir_mono hm hp
  · rw [if_neg hd]
    by_cases hskip : existsP t rel && !outdated m.mtime (mtimeD t rel)
    · rw [if_pos hskip]; exact hp
    · rw [if_neg hskip]
      cases hm : mkdirP t rel.dropLast with
      | error e => exact hp
      | ok t1 => exact tryCopy_isDir_mono o t1 rel m (mkdirP_isDir_mono hm hp)

theorem srcStep_log {o : RPath → Option OSErr} {t : FS} {rel : RPath} {m : EMeta} :
    (srcStep o t rel m).log = [] ∨ (srcStep o t rel m).log = [.copying rel] := by
  unfold srcStep
  by_cases hd : m.isDir
  · rw [if_pos hd]
    cases mkdirP t rel with
    | error e => exact Or.inl rfl
    | ok t1 => exact Or.inl rfl
  · rw [if_neg hd]
    by_cases hskip : existsP t rel && !outdated m.mtime (mtimeD t rel)
    · rw [if_pos hskip]; exact Or.inl rfl
    · rw [if_neg hskip]
      cases mkdirP t rel.dropLast with
      | error e => exact Or.inr rfl
      | ok t1 => exact Or.inr rfl

theorem foldlM_mkdir_err_shape {L : List RPath} : ∀ {fs : FS} {e' : SyncErr},
    List.foldlM mkdirStep fs L = .error e' → ∃ q, e' = .mkdirConflict q := by
  induction L with
  | nil =>
    intro fs e' h'
    exact absurd h' (by intro hc; exact Except.noConfusion hc)
  | cons a L ih =>
    intro fs e' h'
    rw [List.foldlM_cons] at h'
    cases hs : mkdirStep fs a with
    | error e2 =>
      rw [hs] at h'
      have he2 : ∃ q, e2 = SyncErr.mkdirConflict q := by
        unfold mkdirStep at hs
        by_cases hd : isDirP fs a
        · rw [if_pos hd] at hs; exact absurd hs (by simp)
        · rw [if_neg hd] at hs
          by_cases hex : existsP fs a
          · rw [if_pos hex] at hs
            injection hs with hs
            exact ⟨a, hs.symm⟩
          · rw [if_neg hex] at hs; exact absurd hs (by simp)
      have he' : e' = e2 := by
        change (Except.error e2 : Except SyncErr FS) = Except.error e' at h'
        injection h' with h'
        exact h'.symm
      exact he' ▸ he2
    | ok fs1 =>
      rw [hs] at h'
      exact ih h'

theorem srcStep_err_shape {o : RPath → Option OSErr} {t : FS} {rel : RPath}
    {m : EMeta} {e : SyncErr} (h : (srcStep o t rel m).err = some e) :
    ∃ q, e = .mkdirConflict q := by
  unfold srcStep at h
  by_cases hd : m.isDir
  · rw [if_pos hd] at h
    cases hm : mkdirP t rel with
    | error e' =>
      rw [hm] at h
      injection h with h
      exact h ▸ foldlM_mkdir_err_shape hm
    | ok t1 => rw [hm] at h; simp at h
  · rw [if_neg hd] at h
    by_cases hskip : existsP t rel && !outdated m.mtime (mtimeD t rel)
    · rw [if_pos hskip] at h; simp at h
    · rw [if_neg hskip] at h
      cases hm : mkdirP t rel.dropLast with
      | error e' =>
        rw [hm] at h
        injection h with h
        exact h ▸ foldlM_mkdir_err_shape hm
      | ok t1 => rw [hm] at h; simp at h

theorem srcStep_dir_ok {o : RPath → Option OSErr} {t : FS} {rel : RPath} {m : EMeta}
    (hd : m.isDir = true) (herr : (srcStep o t rel m).err = none) :
    ∃ t1, mkdirP t rel = .ok t1 ∧ srcStep o t rel m = ⟨t1, [], none⟩ := by
  unfold srcStep at herr ⊢
  rw [if_pos hd] at herr ⊢
  cases hm : mkdirP t rel with
  | error e => rw [hm] at herr; simp at herr
  | ok t1 => exact ⟨t1, rfl, rfl⟩

theorem srcStep_file_cases {o : RPath → Option OSErr} {t : FS} {rel : RPath}
    {m : EMeta} (hd : m.isDir = false) (herr : (srcStep o t rel m).err = none) :
    (existsP t rel = true ∧ outdated m.mtime (mtimeD t rel) = false ∧
      srcStep o t rel m = ⟨t, [], none⟩) ∨
    ((existsP t rel = false ∨ outdated m.mtime (mtimeD t rel) = true) ∧
      ∃ t1, mkdirP t rel.dropLast = .ok t1 ∧
        srcStep o t rel m = ⟨tryCopy o t1 rel m, [.copying rel], none⟩) := by
  have hd' : ¬m.isDir = true := by rw [hd]; simp
  unfold srcStep at herr ⊢
  rw [if_neg hd'] at herr ⊢
  by_cases hskip : existsP t rel && !outdated m.mtime (mtimeD t rel)
  · rw [if_pos hskip] at herr ⊢
    rw [Bool.and_eq_true, Bool.not_eq_true'] at hskip
    exact Or.inl ⟨hskip.1, hskip.2, rfl⟩
  · rw [if_neg hskip] at herr ⊢
    have hcond : existsP t rel = false ∨ outdated m.mtime (mtimeD t rel) = true := by
      by_cases h1 : existsP t rel
      · by_cases h2 : outdated m.mtime (mtimeD t rel)
        · exact Or.inr h2
        · exfalso
          apply hskip
          have h2' : outdated m.mtime (mtimeD t rel) = false := by simpa using h2
          rw [h1, h2']
          rfl
      · exact Or.inl (by simpa using h1)
    cases hm : mkdirP t rel.dropLast with
    | error e => rw [hm] at herr; simp at herr
    | ok t1 => exact Or.inr ⟨hcond, t1, rfl, rfl⟩

/-! ### Copy-phase lemmas -/

theorem copyPhase_nil {o : RPath → Option OSErr} {t : FS} :
    copyPhase o [] t = ⟨t, [], none⟩ := rfl

theorem copyPhase_cons_err {o : RPath → Option OSErr} {rel : RPath} {m : EMeta}
    {rest t : FS} {e : SyncErr} (h : (srcStep o t rel m).err = some e) :
    copyPhase o ((rel, m) :: rest) t = srcStep o t rel m := by
  simp only [copyPhase]
  rw [h]

theorem copyPhase_cons_ok {o : RPath → Option OSErr} {rel : RPath} {m : EMeta}
    {rest t : FS} (h : (srcStep o t rel m).err = none) :
    copyPhase o ((rel, m) :: rest) t =
      ⟨(copyPhase o rest (srcStep o t rel m).fs).fs,
       (srcStep o t rel m).log ++ (copyPhase o rest (srcStep o t rel m).fs).log,
       (copyPhase o rest (srcStep o t rel m).fs).err⟩ := by
  simp only [copyPhase]
  rw [h]

theorem copyPhase_wf {o : RPath → Option OSErr} : ∀ {es t : FS},
    wfFS t = true → (∀ e ∈ es, e.1 ≠ []) →
    wfFS (copyPhase o es t).fs = true := by
  intro es
  induction es with
  | nil => intro t h _; exact h
  | cons e0 rest ih =>
    intro t hwf hne
    obtain ⟨rel, m⟩ := e0
    have hrne : rel ≠ [] := hne (rel, m) (List.mem_cons_self _ _)
    cases herr : (srcStep o t rel m).err with
    | some e =>
      rw [copyPhase_cons_err herr]
      exact srcStep_wf hwf hrne
    | none =>
      rw [copyPhase_cons_ok herr]
      exact ih (srcStep_wf hwf hrne) (fun e he => hne e (List.mem_cons_of_mem _ he))

theorem copyPhase_err_shape {o : RPath → Option OSErr} : ∀ {es t : FS} {e : SyncErr},
    (copyPhase o es t).err = some e → ∃ q, e = .mkdirConflict q := by
  intro es
  induction es with
  | nil => intro t e h; simp [copyPhase_nil] at h
  | cons e0 rest ih =>
    intro t e h
    obtain ⟨rel, m⟩ := e0
    cases herr : (srcStep o t rel m).err with
    | some e' =>
      rw [copyPhase_cons_err herr] at h
      rw [herr] at h
      injection h with h
      exact h ▸ srcStep_err_shape herr
    | none =>
      rw [copyPhase_cons_ok herr] at h
      exact ih h

theorem copyPhase_frame {o : RPath → Option OSErr} : ∀ {es : FS} {t : FS} {p : RPath},
    (∀ e ∈ es, leadsTo p e.1 = false ∧
      (e.2.isDir = false → p ≠ e.1 ++ [lastSegD e.1])) →
    lookupFS (copyPhase o es t).fs p = lookupFS t p := by
  intro es
  induction es with
  | nil => intro t p _; rfl
  | cons e0 rest ih =>
    intro t p hz
    obtain ⟨rel, m⟩ := e0
    have hz0 := hz (rel, m) (List.mem_cons_self _ _)
    have hframe : lookupFS (srcStep o t rel m).fs p = lookupFS t p :=
      srcStep_frame hz0.1 hz0.2
    cases herr : (srcStep o t rel m).err with
    | some e =>
      rw [copyPhase_cons_err herr]
      exact hframe
    | none =>
      rw [copyPhase_cons_ok herr]
      rw [ih (fun e he => hz e (List.mem_cons_of_mem _ he)), hframe]

theorem copyPhase_isDir_mono {o : RPath → Option OSErr} : ∀ {es t : FS} {p : RPath},
    isDirP t p = true → isDirP (copyPhase o es t).fs p = true := by
  intro es
  induction es with
  | nil => intro t p h; exact h
  | cons e0 rest ih =>
    intro t p h
    obtain ⟨rel, m⟩ := e0
    cases herr : (srcStep o t rel m).err with
    | some e =>
      rw [copyPhase_cons_err herr]
      exact srcStep_isDir_mono h
    | none =>
      rw [copyPhase_cons_ok herr]
      exact ih (srcStep_isDir_mono h)

theorem copyPhase_log_paths {o : RPath → Option OSErr} : ∀ {es t : FS} {p : RPath},
    LogItem.copying p ∈ (copyPhase o es t).log → p ∈ es.map Prod.fst := by
  intro es
  induction es with
  | nil => intro t p h; simp [copyPhase_nil] at h
  | cons e0 rest ih =>
    intro t p h
    obtain ⟨rel, m⟩ := e0
    have hstep : ∀ q, LogItem.copying q ∈ (srcStep o t rel m).log → q = rel := by
      intro q hq
      rcases @srcStep_log o t rel m with hl | hl
      · rw [hl] at hq; simp at hq
      · rw [hl] at hq
        simp only [List.mem_singleton] at hq
        injection hq with hq
    cases herr : (srcStep o t rel m).err with
    | some e =>
      rw [copyPhase_cons_err herr] at h
      rw [hstep p h]
      exact List.mem_cons_self _ _
    | none =>
      rw [copyPhase_cons_ok herr] at h
      simp only [List.mem_append] at h
      rcases h with h | h
      · rw [hstep p h]
        exact List.mem_cons_self _ _
      · exact List.mem_cons_of_mem _ (ih h)

/-- In a well-formed source walk, the writes performed for one source entry
cannot touch the path of a distinct source file entry: the file path is not
an initial segment of the other path, and it is not the inner path of a
copy into a directory. -/
theorem file_entry_framefacts {s : FS} (hwfs : wfFS s = true) {rel : RPath}
    {m : EMeta} (hm : (rel, m) ∈ s) (hfile : m.isDir = false) {e : RPath × EMeta}
    (he : e ∈ s) (hne : e.1 ≠ rel) :
    leadsTo rel e.1 = false ∧ (e.2.isDir = false → rel ≠ e.1 ++ [lastSegD e.1]) := by
  constructor
  · by_contra hlt
    have hlt' : leadsTo rel e.1 = true := by simpa using hlt
    have hrelne : rel ≠ [] := wf_ne_nil hwfs hm
    have hdir : isDirP s rel = true :=
      wf_anc hwfs (show (e.1, e.2) ∈ s by simpa using he) hrelne hlt'
        (fun hc => hne hc.symm)
    rw [isDirP_of_mem_nodup (wf_nodup hwfs) hm, hfile] at hdir
    exact absurd hdir (by simp)
  · intro hek hc
    have h1 : leadsTo e.1 rel = true := by rw [hc]; exact leadsTo_append_self _ _
    have hene : e.1 ≠ [] := wf_ne_nil hwfs he
    have hdir : isDirP s e.1 = true := wf_anc hwfs hm hene h1 hne
    rw [isDirP_of_mem_nodup (wf_nodup hwfs) (show (e.1, e.2) ∈ s by simpa using he),
      hek] at hdir
    exact absurd hdir (by simp)

theorem not_outdated_le {a b : ℚ} (h : outdated a b = false) : |a - b| ≤ EPSILON := by
  unfold outdated at h
  rw [decide_eq_false_iff_not] at h
  exact le_of_not_lt h

theorem self_diff_le {a : ℚ} : |a - a| ≤ EPSILON := by
  rw [sub_self, abs_zero]
  unfold EPSILON
  norm_num

/-- The copy decision of `sync_directory`: when the loop finishes without an
uncaught error, the `Copying` line for a source file appears exactly when
the target path was absent at the start or its timestamp was farther than
`EPSILON` from the source one. -/
theorem copyPhase_copy_iff {o : RPath → Option OSErr} {s : FS}
    (hwfs : wfFS s = true) : ∀ {es t : FS},
    (∀ e ∈ es, e ∈ s) → (es.map Prod.fst).Nodup →
    (copyPhase o es t).err = none →
    ∀ {rel : RPath} {m : EMeta}, (rel, m) ∈ es → m.isDir = false →
    (LogItem.copying rel ∈ (copyPhase o es t).log ↔
      (existsP t rel = false ∨ outdated m.mtime (mtimeD t rel) = true)) := by
  intro es
  induction es with
  | nil =>
    intro t _ _ _ rel m hm _
    simp at hm
  | cons e0 rest ih =>
    intro t hsub hnd hsucc rel m hm hfile
    obtain ⟨rel0, m0⟩ := e0
    cases herr : (srcStep o t rel0 m0).err with
    | some e =>
      rw [copyPhase_cons_err herr, herr] at hsucc
      exact absurd hsucc (by simp)
    | none =>
      rw [copyPhase_cons_ok herr] at hsucc ⊢
      simp only [List.map_cons, List.nodup_cons] at hnd
      rcases List.mem_cons.1 hm with hm0 | hmr
      · -- the entry at the head of the walk
        injection hm0 with hm1 hm2
        subst hm1
        subst hm2
        by_cases hex : existsP t rel
        · by_cases hout : outdated m.mtime (mtimeD t rel)
          · -- copy branch: the line is printed
            rcases srcStep_file_cases hfile herr with ⟨_, hout', _⟩ | ⟨_, t1, _, hstep⟩
            · rw [hout] at hout'; exact absurd hout' (by simp)
            · constructor
              · intro _; exact Or.inr hout
              · intro _
                rw [hstep]
                simp
          · -- skip branch: no line for this path at all
            have hout' : outdated m.mtime (mtimeD t rel) = false := by
              simpa using hout
            rcases srcStep_file_cases hfile herr with ⟨_, _, hstep⟩ | ⟨hcond, _⟩
            · rw [hstep]
              simp only [List.nil_append]
              constructor
              · intro hmem
                exact absurd (copyPhase_log_paths hmem) hnd.1
              · intro hcond
                rcases hcond with hcond | hcond
                · rw [hex] at hcond; exact absurd hcond (by simp)
                · rw [hout'] at hcond; exact absurd hcond (by simp)
            · rcases hcond with hcond | hcond
              · rw [hex] at hcond; exact absurd hcond (by simp)
              · rw [hout'] at hcond; exact absurd hcond (by simp)
        · -- the target path is absent: copy branch
          have hex' : existsP t rel = false := by simpa using hex
          rcases srcStep_file_cases hfile herr with ⟨hex2, _, _⟩ | ⟨_, t1, _, hstep⟩
          · rw [hex'] at hex2; exact absurd hex2 (by simp)
          · constructor
            · intro _; exact Or.inl hex'
            · intro _
              rw [hstep]
              simp
      · -- an entry further down the walk
        have hms : (rel, m) ∈ s := hsub (rel, m) (List.mem_cons_of_mem _ hmr)
        have hrelne : rel ≠ rel0 := by
          intro hc
          subst hc
          exact hnd.1 (List.mem_map.2 ⟨(rel, m), hmr, rfl⟩)
        have hzf := file_entry_framefacts hwfs hms hfile
          (hsub (rel0, m0) (List.mem_cons_self _ _)) (Ne.symm hrelne)
        have hlk : lookupFS (srcStep o t rel0 m0).fs rel = lookupFS t rel :=
          srcStep_frame hzf.1 hzf.2
        have hexeq : existsP (srcStep o t rel0 m0).fs rel = existsP t rel := by
          unfold existsP
          rw [hlk]
        have hmteq : mtimeD (srcStep o t rel0 m0).fs rel = mtimeD t rel := by
          unfold mtimeD
          rw [hlk]
        have hiff := ih (fun e he => hsub e (List.mem_cons_of_mem _ he)) hnd.2 hsucc
          hmr hfile
        rw [hexeq, hmteq] at hiff
        rw [← hiff]
        simp only [List.mem_append]
        constructor
        · intro h
          rcases h with h | h
          · exfalso
            rcases @srcStep_log o t rel0 m0 with hl | hl
            · rw [hl] at h; simp at h
            · rw [hl] at h
              simp only [List.mem_singleton] at h
              injection h with h
              exact hrelne h
          · exact h
        · intro h
          exact Or.inr h

/-- When every source directory already exists as a directory (with all its
ancestors) and every source file is present within tolerance, the copy loop
does nothing: no output, no error, the tree unchanged. -/
theorem copyPhase_noop {o : RPath → Option OSErr} : ∀ {es t : FS},
    (∀ e ∈ es, (e.2.isDir = true → ∀ q ∈ pfxs e.1, isDirP t q = true) ∧
      (e.2.isDir = false → existsP t e.1 = true ∧
        outdated e.2.mtime (mtimeD t e.1) = false)) →
    copyPhase o es t = ⟨t, [], none⟩ := by
  intro es
  induction es with
  | nil => intro t _; rfl
  | cons e0 rest ih =>
    intro t hall
    obtain ⟨rel, m⟩ := e0
    have h0 := hall (rel, m) (List.mem_cons_self _ _)
    have hstep : srcStep o t rel m = ⟨t, [], none⟩ := by
      unfold srcStep
      by_cases hd : m.isDir
      · rw [if_pos hd, mkdirP_noop (h0.1 hd)]
      · rw [if_neg hd]
        obtain ⟨hex, hout⟩ := h0.2 (by simpa using hd)
        have hcond : (existsP t rel && !outdated m.mtime (mtimeD t rel)) = true := by
          rw [hex, hout]
          rfl
        rw [if_pos hcond]
    have herr : (srcStep o t rel m).err = none := by rw [hstep]
    rw [copyPhase_cons_ok herr, hstep]
    rw [ih (fun e he => hall e (List.mem_cons_of_mem _ he))]
    rfl

/-- After a clean run of the copy loop (no failure injected, no uncaught
error) on a well-formed pair with no file/directory kind clash, every
source directory exists as a directory on the target side and every source
file exists there as a file within the timestamp tolerance. -/
theorem copyPhase_mirror {s : FS} (hwfs : wfFS s = true) : ∀ {es t : FS},
    (∀ e ∈ es, e ∈ s) → (es.map Prod.fst).Nodup → wfFS t = true →
    (∀ e ∈ es, e.2.isDir = false → isDirP t e.1 = false) →
    (copyPhase noFailO es t).err = none →
    ∀ e ∈ es,
      (e.2.isDir = true → isDirP (copyPhase noFailO es t).fs e.1 = true) ∧
      (e.2.isDir = false → ∃ m', lookupFS (copyPhase noFailO es t).fs e.1 = some m' ∧
        m'.isDir = false ∧ |e.2.mtime - m'.mtime| ≤ EPSILON) := by
  intro es
  induction es with
  | nil => intro t _ _ _ _ _ e he; simp at he
  | cons e0 rest ih =>
    intro t hsub hnd hwft hkind hsucc e he
    obtain ⟨rel0, m0⟩ := e0
    cases herr : (srcStep noFailO t rel0 m0).err with
    | some e' =>
      rw [copyPhase_cons_err herr, herr] at hsucc
      exact absurd hsucc (by simp)
    | none =>
      rw [copyPhase_cons_ok herr] at hsucc ⊢
      simp only [List.map_cons, List.nodup_cons] at hnd
      have hrel0ne : rel0 ≠ [] := wf_ne_nil hwfs (hsub (rel0, m0) (List.mem_cons_self _ _))
      have hframe_rest : ∀ p : RPath, p ∈ rest.map Prod.fst →
          (lookupFS s p).isSome = true → (∃ mp, (p, mp) ∈ rest ∧ mp.isDir = false) →
          lookupFS (srcStep noFailO t rel0 m0).fs p = lookupFS t p := by
        intro p _ _ hmp
        obtain ⟨mp, hmp, hmpf⟩ := hmp
        have hpne : p ≠ rel0 := by
          intro hc
          subst hc
          exact hnd.1 (List.mem_map.2 ⟨(p, mp), hmp, rfl⟩)
        have hzf := file_entry_framefacts hwfs (hsub (p, mp) (List.mem_cons_of_mem _ hmp))
          hmpf (hsub (rel0, m0) (List.mem_cons_self _ _)) (Ne.symm hpne)
        exact srcStep_frame hzf.1 hzf.2
      rcases List.mem_cons.1 he with he0 | her
      · -- head entry
        subst he0
        dsimp only
        by_cases hd : m0.isDir
        · -- a directory entry: mkdir ran and directories survive
          refine ⟨fun _ => ?_, fun hc => by rw [hc] at hd; exact absurd hd (by simp)⟩
          obtain ⟨t1, hmk, hstep⟩ := srcStep_dir_ok hd herr
          have hdir1 : isDirP t1 rel0 = true :=
            mkdirP_isDir hmk (self_mem_pfxs hrel0ne)
          have hsd : isDirP (srcStep noFailO t rel0 m0).fs rel0 = true := by
            rw [hstep]
            exact hdir1
          exact copyPhase_isDir_mono hsd
        · -- a file entry
          have hd0 : m0.isDir = false := by simpa using hd
          refine ⟨fun hc => by rw [hd0] at hc; exact absurd hc (by simp), fun _ => ?_⟩
          have hkind0 : isDirP t rel0 = false :=
            hkind (rel0, m0) (List.mem_cons_self _ _) hd0
          have hfin : ∀ m', lookupFS (srcStep noFailO t rel0 m0).fs rel0 = some m' →
              m'.isDir = false → |m0.mtime - m'.mtime| ≤ EPSILON →
              ∃ m'', lookupFS (copyPhase noFailO rest (srcStep noFailO t rel0 m0).fs).fs rel0 = some m'' ∧
                m''.isDir = false ∧ |m0.mtime - m''.mtime| ≤ EPSILON := by
            intro m' hlk hkf hdf
            refine ⟨m', ?_, hkf, hdf⟩
            rw [copyPhase_frame, hlk]
            intro e' he'
            have he's : e' ∈ s := hsub e' (List.mem_cons_of_mem _ he')
            have hne' : e'.1 ≠ rel0 := by
              intro hc
              exact hnd.1 (List.mem_map.2 ⟨e', he', hc⟩)
            exact file_entry_framefacts hwfs
              (hsub (rel0, m0) (List.mem_cons_self _ _)) hd0 he's hne'
          rcases srcStep_file_cases hd0 herr with ⟨hex, hout, hstep⟩ | ⟨_, t1, hmk, hstep⟩
          · -- skipped: the pre-existing target entry is a file within tolerance
            obtain ⟨m', hm'⟩ := Option.isSome_iff_exists.1 hex
            have hkf : m'.isDir = false := by
              unfold isDirP at hkind0
              rw [hm'] at hkind0
              exact hkind0
            have hdf : |m0.mtime - m'.mtime| ≤ EPSILON := by
              have := not_outdated_le hout
              unfold mtimeD at this
              rw [hm'] at this
              exact this
            exact hfin m' (by rw [hstep]; exact hm') hkf hdf
          · -- copied: the fresh entry carries the source timestamp
            have hlk1 : lookupFS t1 rel0 = lookupFS t rel0 :=
              mkdirP_frame hmk self_not_mem_pfxs_dropLast
            have hdir1 : isDirP t1 rel0 = false := by
              unfold isDirP at hkind0 ⊢
              rw [hlk1]
              exact hkind0
            have hcopy : lookupFS (tryCopy noFailO t1 rel0 m0) rel0 =
                some ⟨false, m0.mtime, m0.content⟩ := by
              unfold tryCopy noFailO
              rw [if_neg (by rw [hdir1]; simp)]
              exact lookup_setF_self t1 rel0 _
            refine hfin ⟨false, m0.mtime, m0.content⟩ ?_ rfl self_diff_le
            rw [hstep]
            exact hcopy
      · -- an entry further down: apply the induction hypothesis
        have hkind' : ∀ e' ∈ rest, e'.2.isDir = false →
            isDirP (srcStep noFailO t rel0 m0).fs e'.1 = false := by
          intro e' he' hf'
          have hne' : e'.1 ≠ rel0 := by
            intro hc
            exact hnd.1 (List.mem_map.2 ⟨e', he', hc⟩)
          have hzf := file_entry_framefacts hwfs
            (hsub e' (List.mem_cons_of_mem _ he'))
            (by simpa using hf')
            (hsub (rel0, m0) (List.mem_cons_self _ _)) (Ne.symm hne')
          have hlk := @srcStep_frame noFailO t _ m0 _ hzf.1 hzf.2
          unfold isDirP
          rw [hlk]
          have := hkind e' (List.mem_cons_of_mem _ he') hf'
          unfold isDirP at this
          exact this
        exact ih (fun e' he' => hsub e' (List.mem_cons_of_mem _ he')) hnd.2
          (srcStep_wf hwft hrel0ne) hkind' hsucc e her

/-! ### Deletion-pass utilities -/

theorem sUnder_iff {d p : RPath} : sUnder d p = true ↔ leadsTo d p = true ∧ p ≠ d := by
  simp [sUnder]

theorem bool_ne_false {b : Bool} (h : ¬b = false) : b = true := by
  cases b
  · exact absurd rfl h
  · rfl

theorem bool_ne_true {b : Bool} (h : ¬b = true) : b = false := by
  cases b
  · rfl
  · exact absurd rfl h

theorem sUnder_length {d p : RPath} (h : sUnder d p = true) : d.length < p.length := by
  obtain ⟨hlt, hne⟩ := sUnder_iff.1 h
  obtain ⟨q, rfl⟩ := leadsTo_iff_append.1 hlt
  cases q with
  | nil => simp at hne
  | cons a q => simp only [List.length_append, List.length_cons]; omega

theorem leadsTo_eq_of_length {a b : RPath} (h : leadsTo a b = true)
    (hl : a.length = b.length) : a = b := by
  rw [eq_take_of_leadsTo h, hl, List.take_length]

theorem sUnder_trans_leadsTo {c q p : RPath} (h1 : sUnder c q = true)
    (h2 : leadsTo q p = true) : sUnder c p = true := by
  obtain ⟨hlt, hne⟩ := sUnder_iff.1 h1
  refine sUnder_iff.2 ⟨leadsTo_trans hlt h2, ?_⟩
  intro hc
  rw [hc] at h2
  exact hne (leadsTo_antisymm h2 hlt)

/-- The child of `d` on the way to a path strictly below `d`. -/
theorem child_toward {d p : RPath} (h : sUnder d p = true) :
    ∃ s, p.take (d.length + 1) = d ++ [s] := by
  obtain ⟨hlt, hne⟩ := sUnder_iff.1 h
  obtain ⟨q, rfl⟩ := leadsTo_iff_append.1 hlt
  cases q with
  | nil => simp at hne
  | cons a q =>
    refine ⟨a, ?_⟩
    rw [List.take_append_eq_append_take]
    congr 1
    · exact List.take_of_length_le (by omega)
    · have : d.length + 1 - d.length = 1 := by omega
      rw [this]
      rfl

theorem mem_paths_of_lookup {fs : FS} {p : RPath} {m : EMeta}
    (h : lookupFS fs p = some m) : p ∈ fs.map Prod.fst :=
  List.mem_map.2 ⟨(p, m), lookupFS_mem h, rfl⟩

theorem isDirP_mem_paths {fs : FS} {p : RPath} (h : isDirP fs p = true) :
    p ∈ fs.map Prod.fst := by
  unfold isDirP at h
  cases hl : lookupFS fs p with
  | some m => exact mem_paths_of_lookup hl
  | none => rw [hl] at h; simp at h

theorem len_le_maxLen : ∀ {fs : FS} {e : RPath × EMeta}, e ∈ fs →
    e.1.length ≤ maxLen fs := by
  intro fs
  induction fs with
  | nil => intro e he; simp at he
  | cons e0 rest ih =>
    intro e he
    rcases List.mem_cons.1 he with he | he
    · subst he
      simp only [maxLen, List.foldr_cons]
      exact Nat.le_max_left _ _
    · calc e.1.length ≤ maxLen rest := ih he
        _ ≤ max e0.1.length (maxLen rest) := Nat.le_max_right _ _
        _ = maxLen (e0 :: rest) := by simp [maxLen]

theorem maxLen_le : ∀ {fs : FS} {B : ℕ}, (∀ e ∈ fs, e.1.length ≤ B) →
    maxLen fs ≤ B := by
  intro fs
  induction fs with
  | nil => intro B _; simp [maxLen]
  | cons e0 rest ih =>
    intro B h
    simp only [maxLen, List.foldr_cons]
    exact max_le (h e0 (List.mem_cons_self _ _))
      (ih (fun e he => h e (List.mem_cons_of_mem _ he)))

theorem maxLen_filter_le (fs : FS) (g : RPath × EMeta → Bool) :
    maxLen (fs.filter g) ≤ maxLen fs :=
  maxLen_le (fun e he => len_le_maxLen (List.mem_of_mem_filter he))

/-- A filter whose removals propagate downward along the tree order keeps
the tree well-formed. -/
theorem wf_filter_upclosed {fs : FS} {g : RPath → Bool} (hwf : wfFS fs = true)
    (hup : ∀ q p, g q = false → leadsTo q p = true → g p = false) :
    wfFS (fs.filter (fun e => g e.1)) = true := by
  obtain ⟨hn, hnil, hancs⟩ := wfFS_iff.1 hwf
  refine wfFS_iff.2 ⟨?_, ?_, ?_⟩
  · rw [map_fst_filterKey]
    exact hn.filter g
  · intro e he
    exact hnil e (List.mem_of_mem_filter he)
  · intro e he q hq
    have hemem : e ∈ fs := List.mem_of_mem_filter he
    have hge : g e.1 = true := by
      have := List.of_mem_filter he
      simpa using this
    rw [mem_pfxs_dropLast] at hq
    have hgq : g q = true := by
      by_contra hc
      have hc' : g q = false := by simpa using hc
      rw [hup q e.1 hc' hq.2.1] at hge
      exact absurd hge (by simp)
    have hdir : isDirP fs q = true := wf_anc hwf (by simpa using hemem) hq.1 hq.2.1 hq.2.2
    unfold isDirP at hdir ⊢
    rw [lookupFS_filterKey, if_pos hgq]
    exact hdir

def keepClosed (keep : List RPath) : Prop :=
  ∀ p ∈ keep, ∀ q, q ≠ [] → leadsTo q p = true → q ∈ keep

/-- The keep list of sync — all relative paths of a well-formed source
walk — contains every nonempty initial segment of each of its members. -/
theorem wf_keepClosed {s : FS} (hwfs : wfFS s = true) :
    keepClosed (s.map Prod.fst) := by
  intro p hp q hq hlt
  by_cases hqp : q = p
  · subst hqp; exact hp
  · exact isDirP_mem_paths (wf_anc_path hwfs hp hq hlt hqp)

theorem children_mem {fs : FS} {d q : RPath} :
    q ∈ childrenOf fs d ↔ q ∈ fs.map Prod.fst ∧ q.dropLast = d ∧ q ≠ [] := by
  unfold childrenOf
  rw [List.mem_filter]
  simp [and_assoc]

theorem children_shape {fs : FS} {d q : RPath} (h : q ∈ childrenOf fs d) :
    ∃ s, q = d ++ [s] := by
  obtain ⟨_, hd, hne⟩ := children_mem.1 h
  exact child_shape hne hd

theorem children_length {fs : FS} {d q : RPath} (h : q ∈ childrenOf fs d) :
    q.length = d.length + 1 := by
  obtain ⟨s, rfl⟩ := children_shape h
  simp

theorem children_leadsTo {fs : FS} {d q : RPath} (h : q ∈ childrenOf fs d) :
    leadsTo d q = true := by
  obtain ⟨s, rfl⟩ := children_shape h
  exact leadsTo_append_self _ _

theorem children_nodup {fs : FS} (hn : (fs.map Prod.fst).Nodup) (d : RPath) :
    (childrenOf fs d).Nodup :=
  hn.filter _

/-- Siblings do not contain one another. -/
theorem sibling_not_leadsTo {fs : FS} {d c c' : RPath} (hc : c ∈ childrenOf fs d)
    (hc' : c' ∈ childrenOf fs d) (hne : c ≠ c') : leadsTo c c' = false := by
  by_contra h
  have h' : leadsTo c c' = true := by simpa using h
  have := leadsTo_eq_of_length h'
    ((children_length hc).trans (children_length hc').symm)
  exact hne this

theorem unlink_eq_rmTree {fs : FS} {c : RPath} (hwf : wfFS fs = true)
    (hcd : isDirP fs c = false) (hcne : c ≠ []) : unlinkF fs c = rmTree fs c := by
  unfold unlinkF rmTree
  apply List.filter_congr
  intro e he
  by_cases hec : e.1 = c
  · rw [hec]
    simp [leadsTo_refl]
  · have hlt : leadsTo c e.1 = false := by
      by_contra hlt'
      have hlt'' : leadsTo c e.1 = true := by simpa using hlt'
      have hdir : isDirP fs c = true :=
        wf_anc hwf (show (e.1, e.2) ∈ fs by simpa using he) hcne hlt''
          (fun hcc => hec hcc.symm)
      rw [hdir] at hcd
      exact absurd hcd (by simp)
    simp [hec, hlt]

theorem wf_rmTree {fs : FS} {c : RPath} (hwf : wfFS fs = true) :
    wfFS (rmTree fs c) = true := by
  refine @wf_filter_upclosed fs (fun q => !leadsTo c q) hwf ?_
  intro q p hq hlt
  simp only [Bool.not_eq_false'] at hq ⊢
  exact leadsTo_trans hq hlt

theorem delChildren_cons (keep : List RPath) (fs : FS) (c : RPath) (cs : List RPath) :
    delChildren keep fs (c :: cs) =
      if c ∈ keep then delChildren keep fs cs
      else if isDirP fs c then
        ⟨(delChildren keep (rmTree fs c) cs).fs,
         .deletingDir c :: (delChildren keep (rmTree fs c) cs).log,
         (delChildren keep (rmTree fs c) cs).err⟩
      else if existsP fs c then
        ⟨(delChildren keep (unlinkF fs c) cs).fs,
         .deletingFile c :: (delChildren keep (unlinkF fs c) cs).log,
         (delChildren keep (unlinkF fs c) cs).err⟩
      else ⟨fs, [.deletingFile c], some (.missing c)⟩ := rfl

/-- The loop body over one directory listing deletes exactly the subtrees
of the listed paths that are not in the keep list, and never trips over a
missing path: each listed path still exists when its turn comes, because
deleting one sibling subtree cannot remove another sibling. -/
theorem delChildren_spec {keep : List RPath} {d : RPath} : ∀ {cs : List RPath} {fs : FS},
    wfFS fs = true → cs.Nodup →
    (∀ c ∈ cs, c ∈ fs.map Prod.fst ∧ c.dropLast = d ∧ c ≠ []) →
    (delChildren keep fs cs).err = none ∧
    (delChildren keep fs cs).fs =
      fs.filter (fun e => cs.all (fun c => decide (c ∈ keep) || !leadsTo c e.1)) := by
  intro cs
  induction cs with
  | nil =>
    intro fs _ _ _
    refine ⟨rfl, ?_⟩
    show fs = fs.filter _
    symm
    apply List.filter_eq_self.2
    intro e _
    simp
  | cons c cs ih =>
    intro fs hwf hnd hprops
    have hc := hprops c (List.mem_cons_self _ _)
    simp only [List.nodup_cons] at hnd
    by_cases hk : c ∈ keep
    · rw [delChildren_cons, if_pos hk]
      obtain ⟨herr, hfs⟩ := ih hwf hnd.2
        (fun c' hc' => hprops c' (List.mem_cons_of_mem _ hc'))
      refine ⟨herr, ?_⟩
      rw [hfs]
      apply List.filter_congr
      intro e _
      simp [hk]
    · have hex : existsP fs c = true := existsP_iff_mem.2 hc.1
      have hstep : ∃ item, delChildren keep fs (c :: cs) =
          ⟨(delChildren keep (rmTree fs c) cs).fs,
           item :: (delChildren keep (rmTree fs c) cs).log,
           (delChildren keep (rmTree fs c) cs).err⟩ := by
        rw [delChildren_cons, if_neg hk]
        by_cases hdir : isDirP fs c
        · rw [if_pos hdir]
          exact ⟨.deletingDir c, rfl⟩
        · rw [if_neg hdir, if_pos hex, unlink_eq_rmTree hwf (by simpa using hdir) hc.2.2]
          exact ⟨.deletingFile c, rfl⟩
      obtain ⟨item, hstep⟩ := hstep
      have hwf2 : wfFS (rmTree fs c) = true := wf_rmTree hwf
      have hprops2 : ∀ c' ∈ cs, c' ∈ (rmTree fs c).map Prod.fst ∧
          c'.dropLast = d ∧ c' ≠ [] := by
        intro c' hc'
        have h' := hprops c' (List.mem_cons_of_mem _ hc')
        refine ⟨?_, h'.2⟩
        unfold rmTree
        have hmemc : c ∈ childrenOf fs d := children_mem.2 hc
        have hmemc' : c' ∈ childrenOf fs d := children_mem.2 h'
        have hne : c ≠ c' := by
          intro hcc
          exact hnd.1 (hcc ▸ hc')
        have hsib : leadsTo c c' = false := sibling_not_leadsTo hmemc hmemc' hne
        rw [map_fst_filterKey fs (fun q => !leadsTo c q)]
        exact List.mem_filter.2 ⟨h'.1, by rw [hsib]; rfl⟩
      obtain ⟨herr2, hfs2⟩ := ih hwf2 hnd.2 hprops2
      rw [hstep]
      refine ⟨herr2, ?_⟩
      show (delChildren keep (rmTree fs c) cs).fs = _
      rw [hfs2]
      unfold rmTree
      rw [List.filter_filter]
      apply List.filter_congr
      intro e _
      cases hlt : leadsTo c e.1 <;> simp [hk, hlt]

theorem delWalk_zero (keep : List RPath) (fs : FS) (d : RPath) :
    delWalk keep 0 fs d = ⟨fs, [], none⟩ := by
  simp [delWalk]

theorem delWalkDirs_nil (keep : List RPath) (fuel : ℕ) (fs : FS) :
    delWalkDirs keep fuel fs [] = ⟨fs, [], none⟩ := rfl

theorem delWalk_succ_err {keep : List RPath} {fuel : ℕ} {fs : FS} {d : RPath}
    {e : SyncErr} (h : (delChildren keep fs (childrenOf fs d)).err = some e) :
    delWalk keep (fuel + 1) fs d =
      ⟨(delChildren keep fs (childrenOf fs d)).fs,
       (delChildren keep fs (childrenOf fs d)).log, some e⟩ := by
  simp only [delWalk]
  rw [h]

theorem delWalk_succ_ok {keep : List RPath} {fuel : ℕ} {fs : FS} {d : RPath}
    (h : (delChildren keep fs (childrenOf fs d)).err = none) :
    delWalk keep (fuel + 1) fs d =
      ⟨(delWalkDirs keep fuel (delChildren keep fs (childrenOf fs d)).fs
          ((childrenOf (delChildren keep fs (childrenOf fs d)).fs d).filter
            (fun c => isDirP (delChildren keep fs (childrenOf fs d)).fs c))).fs,
       (delChildren keep fs (childrenOf fs d)).log ++
         (delWalkDirs keep fuel (delChildren keep fs (childrenOf fs d)).fs
          ((childrenOf (delChildren keep fs (childrenOf fs d)).fs d).filter
            (fun c => isDirP (delChildren keep fs (childrenOf fs d)).fs c))).log,
       (delWalkDirs keep fuel (delChildren keep fs (childrenOf fs d)).fs
          ((childrenOf (delChildren keep fs (childrenOf fs d)).fs d).filter
            (fun c => isDirP (delChildren keep fs (childrenOf fs d)).fs c))).err⟩ := by
  show (match (delChildren keep fs (childrenOf fs d)).err with
    | some e => SyncOut.mk (delChildren keep fs (childrenOf fs d)).fs
        (delChildren keep fs (childrenOf fs d)).log (some e)
    | none =>
      SyncOut.mk
        (seqWalk (delWalk keep fuel) (delChildren keep fs (childrenOf fs d)).fs
          ((childrenOf (delChildren keep fs (childrenOf fs d)).fs d).filter
            (fun c => isDirP (delChildren keep fs (childrenOf fs d)).fs c))).fs
        ((delChildren keep fs (childrenOf fs d)).log ++
          (seqWalk (delWalk keep fuel) (delChildren keep fs (childrenOf fs d)).fs
            ((childrenOf (delChildren keep fs (childrenOf fs d)).fs d).filter
              (fun c => isDirP (delChildren keep fs (childrenOf fs d)).fs c))).log)
        (seqWalk (delWalk keep fuel) (delChildren keep fs (childrenOf fs d)).fs
          ((childrenOf (delChildren keep fs (childrenOf fs d)).fs d).filter
            (fun c => isDirP (delChildren keep fs (childrenOf fs d)).fs c))).err) = _
  rw [h]
  rfl

theorem delWalkDirs_cons_err {keep : List RPath} {fuel : ℕ} {fs : FS} {c : RPath}
    {cs : List RPath} {e : SyncErr} (h : (delWalk keep fuel fs c).err = some e) :
    delWalkDirs keep fuel fs (c :: cs) =
      ⟨(delWalk keep fuel fs c).fs, (delWalk keep fuel fs c).log, some e⟩ := by
  show seqWalk (delWalk keep fuel) fs (c :: cs) = _
  simp only [seqWalk]
  rw [h]

theorem delWalkDirs_cons_ok {keep : List RPath} {fuel : ℕ} {fs : FS} {c : RPath}
    {cs : List RPath} (h : (delWalk keep fuel fs c).err = none) :
    delWalkDirs keep fuel fs (c :: cs) =
      ⟨(delWalkDirs keep fuel (delWalk keep fuel fs c).fs cs).fs,
       (delWalk keep fuel fs c).log ++
         (delWalkDirs keep fuel (delWalk keep fuel fs c).fs cs).log,
       (delWalkDirs keep fuel (delWalk keep fuel fs c).fs cs).err⟩ := by
  show seqWalk (delWalk keep fuel) fs (c :: cs) = _
  simp only [seqWalk]
  rw [h]
  rfl

theorem sUnder_nil_right {c : RPath} (h : c ≠ []) : sUnder c [] = false := by
  rw [sUnder]
  cases c with
  | nil => exact absurd rfl h
  | cons a as => rfl

theorem wf_filter_keepOrNotUnder {fs : FS} {keep : List RPath} {c : RPath}
    (hwf : wfFS fs = true) (hcl : keepClosed keep) :
    wfFS (fs.filter (fun e => decide (e.1 ∈ keep) || !sUnder c e.1)) = true := by
  refine @wf_filter_upclosed fs (fun q => decide (q ∈ keep) || !sUnder c q) hwf ?_
  intro q p hq hlt
  simp only [Bool.or_eq_false_iff, decide_eq_false_iff_not, Bool.not_eq_false'] at hq ⊢
  obtain ⟨hqk, hqu⟩ := hq
  have hqne : q ≠ [] := by
    intro hc
    subst hc
    obtain ⟨h1, h2⟩ := sUnder_iff.1 hqu
    cases c with
    | nil => exact h2 rfl
    | cons a as => simp [leadsTo] at h1
  refine ⟨fun hpk => hqk (hcl p hpk q hqne hlt), sUnder_trans_leadsTo hqu hlt⟩

theorem wf_filter_children {fs : FS} {keep : List RPath} {cs : List RPath}
    (hwf : wfFS fs = true) :
    wfFS (fs.filter (fun e => cs.all (fun c => decide (c ∈ keep) || !leadsTo c e.1))) = true := by
  refine @wf_filter_upclosed fs
    (fun q => cs.all (fun c => decide (c ∈ keep) || !leadsTo c q)) hwf ?_
  intro q p hq hlt
  have hq2 : (cs.all fun c => decide (c ∈ keep) || !leadsTo c q) = false := hq
  show (cs.all fun c => decide (c ∈ keep) || !leadsTo c p) = false
  have hq' : ¬ ∀ c ∈ cs, (decide (c ∈ keep) || !leadsTo c q) = true := by
    rw [← List.all_eq_true, hq2]
    simp
  push_neg at hq'
  obtain ⟨c, hc, hcq⟩ := hq'
  have hck : c ∉ keep ∧ leadsTo c q = true := by
    have hcq' : (decide (c ∈ keep) || !leadsTo c q) = false := by
      simpa using hcq
    rw [Bool.or_eq_false_iff] at hcq'
    obtain ⟨h1, h2⟩ := hcq'
    rw [decide_eq_false_iff_not] at h1
    rw [Bool.not_eq_false'] at h2
    exact ⟨h1, h2⟩
  have hcp : leadsTo c p = true := leadsTo_trans hck.2 hlt
  have hgoal : ¬ (cs.all fun c' => decide (c' ∈ keep) || !leadsTo c' p) = true := by
    rw [List.all_eq_true]
    intro hall
    have hcall := hall c hc
    simp only [Bool.or_eq_true, decide_eq_true_eq, Bool.not_eq_true'] at hcall
    rcases hcall with h | h
    · exact hck.1 h
    · rw [hcp] at h
      exact absurd h (by simp)
  simpa using hgoal

/-- Descending into the surviving sub-directories removes exactly the
non-kept subtrees below them. -/
theorem delWalkDirs_spec (fuel : ℕ) (keep : List RPath) (hcl : keepClosed keep)
    (hP : ∀ (fs : FS) (d : RPath), wfFS fs = true →
      maxLen fs < fuel + d.length →
      (delWalk keep fuel fs d).err = none ∧
      (delWalk keep fuel fs d).fs =
        fs.filter (fun e => decide (e.1 ∈ keep) || !sUnder d e.1)) :
    ∀ (cs : List RPath) (fs : FS), wfFS fs = true →
      (∀ c ∈ cs, maxLen fs < fuel + c.length) →
      (delWalkDirs keep fuel fs cs).err = none ∧
      (delWalkDirs keep fuel fs cs).fs =
        fs.filter (fun e => decide (e.1 ∈ keep) || cs.all (fun c => !sUnder c e.1)) := by
  intro cs
  induction cs with
  | nil =>
    intro fs hwf _
    rw [delWalkDirs_nil]
    refine ⟨rfl, ?_⟩
    show fs = fs.filter _
    symm
    apply List.filter_eq_self.2
    intro e _
    simp
  | cons c cs ih =>
    intro fs hwf hlen
    obtain ⟨herr1, hfs1⟩ := hP fs c hwf (hlen c (List.mem_cons_self _ _))
    rw [delWalkDirs_cons_ok herr1]
    have hwf1 : wfFS (delWalk keep fuel fs c).fs = true := by
      rw [hfs1]
      exact wf_filter_keepOrNotUnder hwf hcl
    have hlen1 : ∀ c' ∈ cs, maxLen (delWalk keep fuel fs c).fs < fuel + c'.length := by
      intro c' hc'
      calc maxLen (delWalk keep fuel fs c).fs ≤ maxLen fs := by
            rw [hfs1]; exact maxLen_filter_le _ _
        _ < fuel + c'.length := hlen c' (List.mem_cons_of_mem _ hc')
    obtain ⟨herr2, hfs2⟩ := ih (delWalk keep fuel fs c).fs hwf1 hlen1
    refine ⟨herr2, ?_⟩
    show (delWalkDirs keep fuel (delWalk keep fuel fs c).fs cs).fs = _
    rw [hfs2, hfs1, List.filter_filter]
    apply List.filter_congr
    intro e _
    cases hk : decide (e.1 ∈ keep) <;> cases hu : sUnder c e.1 <;> simp [hk, hu]

/-- The deletion pass below a directory `d` removes exactly the entries
strictly below `d` whose relative path is not kept, raises nothing, and
touches nothing outside `d`.  The fuel only needs to dominate the depth of
the tree. -/
theorem delWalk_spec : ∀ (fuel : ℕ) (keep : List RPath) (fs : FS) (d : RPath),
    wfFS fs = true → keepClosed keep → maxLen fs < fuel + d.length →
    (delWalk keep fuel fs d).err = none ∧
    (delWalk keep fuel fs d).fs =
      fs.filter (fun e => decide (e.1 ∈ keep) || !sUnder d e.1) := by
  intro fuel
  induction fuel with
  | zero =>
    intro keep fs d hwf hcl hlen
    rw [delWalk_zero]
    refine ⟨rfl, ?_⟩
    show fs = fs.filter _
    symm
    apply List.filter_eq_self.2
    intro e he
    have h1 : e.1.length ≤ maxLen fs := len_le_maxLen he
    have h2 : sUnder d e.1 = false := by
      by_contra hc
      have hc' : sUnder d e.1 = true := by simpa using hc
      have := sUnder_length hc'
      omega
    rw [h2]
    simp
  | succ fuel ih =>
    intro keep fs d hwf hcl hlen
    have hcn : (childrenOf fs d).Nodup := children_nodup (wf_nodup hwf) d
    have hcp : ∀ c ∈ childrenOf fs d, c ∈ fs.map Prod.fst ∧ c.dropLast = d ∧ c ≠ [] :=
      fun c hc => children_mem.1 hc
    obtain ⟨herr1, hfs1⟩ := delChildren_spec hwf hcn hcp
    rw [delWalk_succ_ok herr1]
    rw [hfs1]
    have hwfF : wfFS (fs.filter (fun e =>
        (childrenOf fs d).all (fun c => decide (c ∈ keep) || !leadsTo c e.1))) = true :=
      wf_filter_children hwf
    have hlens : ∀ c ∈ (childrenOf (fs.filter (fun e =>
          (childrenOf fs d).all (fun c => decide (c ∈ keep) || !leadsTo c e.1))) d).filter
            (fun c => isDirP (fs.filter (fun e =>
              (childrenOf fs d).all (fun c => decide (c ∈ keep) || !leadsTo c e.1))) c),
        maxLen (fs.filter (fun e =>
          (childrenOf fs d).all (fun c => decide (c ∈ keep) || !leadsTo c e.1))) <
          fuel + c.length := by
      intro c hc
      have hc' := List.mem_of_mem_filter hc
      have hcl' := children_length hc'
      calc maxLen _ ≤ maxLen fs := maxLen_filter_le _ _
        _ < fuel + 1 + d.length := hlen
        _ = fuel + c.length := by rw [hcl']; omega
    obtain ⟨herr2, hfs2⟩ := delWalkDirs_spec fuel keep hcl (fun fs' d' hw hl => ih keep fs' d' hw hcl hl) _ _
      hwfF hlens
    refine ⟨herr2, ?_⟩
    show (delWalkDirs _ _ _ _).fs = _
    rw [hfs2, List.filter_filter]
    apply List.filter_congr
    intro e he
    -- pointwise: children-level filter composed with descent-level filter
    -- equals the subtree filter below d
    by_cases hk : e.1 ∈ keep
    · -- a kept path survives both stages
      have hdc : ((childrenOf fs d).all
          (fun c => decide (c ∈ keep) || !leadsTo c e.1)) = true := by
        rw [List.all_eq_true]
        intro c hcmem
        simp only [Bool.or_eq_true, decide_eq_true_eq, Bool.not_eq_true']
        by_cases hlt : leadsTo c e.1 = true
        · exact Or.inl (hcl e.1 hk c (children_mem.1 hcmem).2.2 hlt)
        · exact Or.inr (by simpa using hlt)
      simp [hk, hdc]
    · by_cases hu : sUnder d e.1
      · -- a non-kept path strictly below d is removed at one of the stages
        have hmem : e.1 ∈ fs.map Prod.fst := List.mem_map.2 ⟨e, he, rfl⟩
        obtain ⟨s, hc0⟩ := child_toward hu
        have hlt0 : leadsTo (e.1.take (d.length + 1)) e.1 = true := leadsTo_take _ _
        have hne0 : e.1.take (d.length + 1) ≠ [] := by
          rw [hc0]
          simp
        have hdl0 : (e.1.take (d.length + 1)).dropLast = d := by
          rw [hc0]
          exact List.dropLast_concat
        have hmem0 : e.1.take (d.length + 1) ∈ fs.map Prod.fst := by
          by_cases heq : e.1.take (d.length + 1) = e.1
          · rw [heq]; exact hmem
          · exact isDirP_mem_paths (wf_anc_path hwf hmem hne0 hlt0 heq)
        have hch0 : e.1.take (d.length + 1) ∈ childrenOf fs d :=
          children_mem.2 ⟨hmem0, hdl0, hne0⟩
        by_cases hk0 : e.1.take (d.length + 1) ∈ keep
        · -- the child on the way is kept: the descent removes the path
          have hne0e : e.1.take (d.length + 1) ≠ e.1 := by
            intro heq
            rw [heq] at hk0
            exact hk hk0
          have hdir0 : isDirP fs (e.1.take (d.length + 1)) = true :=
            wf_anc_path hwf hmem hne0 hlt0 hne0e
          have hdc0 : ((childrenOf fs d).all
              (fun c => decide (c ∈ keep) || !leadsTo c (e.1.take (d.length + 1)))) = true := by
            rw [List.all_eq_true]
            intro c hcmem
            simp only [Bool.or_eq_true, decide_eq_true_eq, Bool.not_eq_true']
            by_cases hlt : leadsTo c (e.1.take (d.length + 1)) = true
            · left
              have : c = e.1.take (d.length + 1) := leadsTo_eq_of_length hlt
                (by rw [children_length hcmem, hc0]; simp)
              rw [this]
              exact hk0
            · exact Or.inr (by simpa using hlt)
          have hmemF : e.1.take (d.length + 1) ∈ (fs.filter (fun e =>
              (childrenOf fs d).all (fun c => decide (c ∈ keep) || !leadsTo c e.1))).map
                Prod.fst := by
            rw [map_fst_filterKey fs (fun q =>
              (childrenOf fs d).all (fun c => decide (c ∈ keep) || !leadsTo c q))]
            exact List.mem_filter.2 ⟨hmem0, hdc0⟩
          have hdirF : isDirP (fs.filter (fun e =>
              (childrenOf fs d).all (fun c => decide (c ∈ keep) || !leadsTo c e.1)))
                (e.1.take (d.length + 1)) = true := by
            unfold isDirP at hdir0 ⊢
            rw [lookupFS_filterKey fs (fun q =>
              (childrenOf fs d).all (fun c => decide (c ∈ keep) || !leadsTo c q)),
              if_pos hdc0]
            exact hdir0
          have hchF : e.1.take (d.length + 1) ∈ (childrenOf (fs.filter (fun e =>
              (childrenOf fs d).all (fun c => decide (c ∈ keep) || !leadsTo c e.1))) d).filter
                (fun c => isDirP (fs.filter (fun e =>
                  (childrenOf fs d).all (fun c => decide (c ∈ keep) || !leadsTo c e.1))) c) :=
            List.mem_filter.2 ⟨children_mem.2 ⟨hmemF, hdl0, hne0⟩, hdirF⟩
          have hsu0 : sUnder (e.1.take (d.length + 1)) e.1 = true :=
            sUnder_iff.2 ⟨hlt0, fun hcc => hne0e hcc.symm⟩
          have hall : (((childrenOf (fs.filter (fun e =>
              (childrenOf fs d).all (fun c => decide (c ∈ keep) || !leadsTo c e.1))) d).filter
                (fun c => isDirP (fs.filter (fun e =>
                  (childrenOf fs d).all (fun c => decide (c ∈ keep) || !leadsTo c e.1))) c)).all
              (fun c => !sUnder c e.1)) = false := by
            by_contra hcontra
            have hcontra' := List.all_eq_true.1 (bool_ne_false hcontra) _ hchF
            rw [hsu0] at hcontra'
            exact absurd hcontra' (by simp)
          simp [hk, hall, hu]
        · -- the child on the way is not kept: the listing stage removed it
          have hdc : ((childrenOf fs d).all
              (fun c => decide (c ∈ keep) || !leadsTo c e.1)) = false := by
            by_contra hcontra
            have hcontra' := List.all_eq_true.1 (bool_ne_false hcontra) _ hch0
            simp only [Bool.or_eq_true, decide_eq_true_eq, Bool.not_eq_true'] at hcontra'
            rcases hcontra' with h | h
            · exact hk0 h
            · rw [hlt0] at h
              exact absurd h (by simp)
          simp [hk, hu, hdc]
      · -- a path not strictly below d survives both stages
        have hu' : sUnder d e.1 = false := bool_ne_true hu
        have hdc : ((childrenOf fs d).all
            (fun c => decide (c ∈ keep) || !leadsTo c e.1)) = true := by
          rw [List.all_eq_true]
          intro c hcmem
          simp only [Bool.or_eq_true, decide_eq_true_eq, Bool.not_eq_true']
          right
          by_contra hlt
          have hlt' : leadsTo c e.1 = true := by simpa using hlt
          have hdc' : leadsTo d e.1 = true :=
            leadsTo_trans (children_leadsTo hcmem) hlt'
          have hne : e.1 ≠ d := by
            intro heq
            rw [heq] at hlt'
            have := leadsTo_length hlt'
            rw [children_length hcmem] at this
            omega
          rw [sUnder_iff.2 ⟨hdc', hne⟩] at hu'
          exact absurd hu' (by simp)
        have hall : (((childrenOf (fs.filter (fun e =>
            (childrenOf fs d).all (fun c => decide (c ∈ keep) || !leadsTo c e.1))) d).filter
              (fun c => isDirP (fs.filter (fun e =>
                (childrenOf fs d).all (fun c => decide (c ∈ keep) || !leadsTo c e.1))) c)).all
            (fun c => !sUnder c e.1)) = true := by
          rw [List.all_eq_true]
          intro c hcmem
          have hch := List.mem_of_mem_filter hcmem
          simp only [Bool.not_eq_true']
          by_contra hsu
          have hsu' : sUnder c e.1 = true := bool_ne_false hsu
          obtain ⟨hltc, hnec⟩ := sUnder_iff.1 hsu'
          have hdc' : leadsTo d e.1 = true :=
            leadsTo_trans (children_leadsTo hch) hltc
          have hne : e.1 ≠ d := by
            intro heq
            rw [heq] at hltc
            have := leadsTo_length hltc
            rw [children_length hch] at this
            omega
          rw [sUnder_iff.2 ⟨hdc', hne⟩] at hu'
          exact absurd hu' (by simp)
        simp [hk, hu', hdc, hall]

/-! ### Deletion pass: no work when everything is kept; log shape -/

theorem delChildren_noop {keep : List RPath} : ∀ {cs : List RPath} {fs : FS},
    (∀ c ∈ cs, c ∈ keep) → delChildren keep fs cs = ⟨fs, [], none⟩ := by
  intro cs
  induction cs with
  | nil => intro fs _; rfl
  | cons c cs ih =>
    intro fs hall
    rw [delChildren_cons, if_pos (hall c (List.mem_cons_self _ _))]
    exact ih (fun c' hc' => hall c' (List.mem_cons_of_mem _ hc'))

theorem delWalkDirs_noop (fuel : ℕ) (keep : List RPath)
    (hP : ∀ fs : FS, (∀ p ∈ fs.map Prod.fst, p ∈ keep) →
      ∀ d, delWalk keep fuel fs d = ⟨fs, [], none⟩) :
    ∀ (cs : List RPath) (fs : FS), (∀ p ∈ fs.map Prod.fst, p ∈ keep) →
      delWalkDirs keep fuel fs cs = ⟨fs, [], none⟩ := by
  intro cs
  induction cs with
  | nil => intro fs _; exact delWalkDirs_nil _ _ _
  | cons c cs ih =>
    intro fs hall
    have h1 : delWalk keep fuel fs c = ⟨fs, [], none⟩ := hP fs hall c
    rw [delWalkDirs_cons_ok (by rw [h1])]
    simp [h1, ih fs hall]

theorem delWalk_noop : ∀ (fuel : ℕ) (keep : List RPath) (fs : FS),
    (∀ p ∈ fs.map Prod.fst, p ∈ keep) →
    ∀ d, delWalk keep fuel fs d = ⟨fs, [], none⟩ := by
  intro fuel
  induction fuel with
  | zero => intro keep fs _ d; exact delWalk_zero _ _ _
  | succ fuel ih =>
    intro keep fs hall d
    have hchild : ∀ c ∈ childrenOf fs d, c ∈ keep :=
      fun c hc => hall c (children_mem.1 hc).1
    have hdc : delChildren keep fs (childrenOf fs d) = ⟨fs, [], none⟩ :=
      delChildren_noop hchild
    rw [delWalk_succ_ok (by rw [hdc])]
    have hdirs := delWalkDirs_noop fuel keep (ih keep)
    simp [hdc, hdirs _ fs hall]

theorem delChildren_log_del {keep : List RPath} : ∀ {cs : List RPath} {fs : FS}
    {x : LogItem}, x ∈ (delChildren keep fs cs).log → x.isCopy = false := by
  intro cs
  induction cs with
  | nil => intro fs x hx; simp [delChildren] at hx
  | cons c cs ih =>
    intro fs x hx
    rw [delChildren_cons] at hx
    by_cases hk : c ∈ keep
    · rw [if_pos hk] at hx
      exact ih hx
    · rw [if_neg hk] at hx
      by_cases hdir : isDirP fs c
      · rw [if_pos hdir] at hx
        rcases List.mem_cons.1 hx with h | h
        · rw [h]; rfl
        · exact ih h
      · rw [if_neg hdir] at hx
        by_cases hex : existsP fs c
        · rw [if_pos hex] at hx
          rcases List.mem_cons.1 hx with h | h
          · rw [h]; rfl
          · exact ih h
        · rw [if_neg hex] at hx
          simp only [List.mem_singleton] at hx
          rw [hx]
          rfl

theorem delWalkDirs_log_del (fuel : ℕ) (keep : List RPath)
    (hP : ∀ (fs : FS) (d : RPath) (x : LogItem),
      x ∈ (delWalk keep fuel fs d).log → x.isCopy = false) :
    ∀ (cs : List RPath) (fs : FS) (x : LogItem),
      x ∈ (delWalkDirs keep fuel fs cs).log → x.isCopy = false := by
  intro cs
  induction cs with
  | nil =>
    intro fs x hx
    rw [delWalkDirs_nil] at hx
    simp at hx
  | cons c cs ih =>
    intro fs x hx
    cases herr : (delWalk keep fuel fs c).err with
    | some e =>
      rw [delWalkDirs_cons_err herr] at hx
      exact hP fs c x hx
    | none =>
      rw [delWalkDirs_cons_ok herr] at hx
      simp only [List.mem_append] at hx
      rcases hx with hx | hx
      · exact hP fs c x hx
      · exact ih _ x hx

theorem delWalk_log_del : ∀ (fuel : ℕ) (keep : List RPath) (fs : FS) (d : RPath)
    (x : LogItem), x ∈ (delWalk keep fuel fs d).log → x.isCopy = false := by
  intro fuel
  induction fuel with
  | zero =>
    intro keep fs d x hx
    rw [delWalk_zero] at hx
    simp at hx
  | succ fuel ih =>
    intro keep fs d x hx
    cases herr : (delChildren keep fs (childrenOf fs d)).err with
    | some e =>
      rw [delWalk_succ_err herr] at hx
      exact delChildren_log_del hx
    | none =>
      rw [delWalk_succ_ok herr] at hx
      simp only [List.mem_append] at hx
      rcases hx with hx | hx
      · exact delChildren_log_del hx
      · exact delWalkDirs_log_del fuel keep (ih keep) _ _ x hx

/-! ### sync-level lemmas -/

theorem syncFS_false (o : RPath → Option OSErr) (s t : FS) :
    syncFS o false s t = ⟨t, [], none⟩ := rfl

theorem syncFS_true_err {o : RPath → Option OSErr} {s t : FS} {e : SyncErr}
    (h : (copyPhase o s t).err = some e) :
    syncFS o true s t = copyPhase o s t := by
  simp only [syncFS, if_true]
  rw [h]

theorem syncFS_true_ok {o : RPath → Option OSErr} {s t : FS}
    (h : (copyPhase o s t).err = none) :
    syncFS o true s t =
      ⟨(delWalk (s.map Prod.fst) (fuelFor (copyPhase o s t).fs) (copyPhase o s t).fs []).fs,
       (copyPhase o s t).log ++
         (delWalk (s.map Prod.fst) (fuelFor (copyPhase o s t).fs) (copyPhase o s t).fs []).log,
       (delWalk (s.map Prod.fst) (fuelFor (copyPhase o s t).fs) (copyPhase o s t).fs []).err⟩ := by
  simp only [syncFS, if_true]
  rw [h]

theorem fuelFor_big (fs : FS) (d : RPath) : maxLen fs < fuelFor fs + d.length := by
  unfold fuelFor
  omega

/-- After a finished copy loop on a well-formed pair, the deletion pass of
sync raises nothing and the final tree is the post-copy tree restricted to
the source paths. -/
theorem syncFS_final {o : RPath → Option OSErr} {s t : FS} (hws : wfFS s = true)
    (hwt : wfFS t = true) (h : (copyPhase o s t).err = none) :
    (syncFS o true s t).err = none ∧
    (syncFS o true s t).fs =
      (copyPhase o s t).fs.filter (fun e => decide (e.1 ∈ s.map Prod.fst) ||
        !sUnder [] e.1) := by
  have hwcp : wfFS (copyPhase o s t).fs = true :=
    copyPhase_wf hwt (fun e he => wf_ne_nil hws he)
  obtain ⟨herr, hfs⟩ := delWalk_spec (fuelFor (copyPhase o s t).fs) (s.map Prod.fst)
    (copyPhase o s t).fs [] hwcp (wf_keepClosed hws) (fuelFor_big _ _)
  rw [syncFS_true_ok h]
  exact ⟨herr, hfs⟩

/-- After a finished copy loop the final tree keeps exactly the post-copy
entries whose path is a source path. -/
theorem syncFS_final_paths {o : RPath → Option OSErr} {s t : FS} (hws : wfFS s = true)
    (hwt : wfFS t = true) (h : (copyPhase o s t).err = none) :
    (syncFS o true s t).fs =
      (copyPhase o s t).fs.filter (fun e => decide (e.1 ∈ s.map Prod.fst)) := by
  rw [(syncFS_final hws hwt h).2]
  apply List.filter_congr
  intro e he
  have hne : e.1 ≠ [] :=
    wf_ne_nil (copyPhase_wf hwt (fun e' he' => wf_ne_nil hws he')) he
  have : sUnder [] e.1 = true := by
    rw [sUnder_iff]
    exact ⟨leadsTo_nil e.1, hne⟩
  rw [this]
  simp

theorem syncFS_err_eq_copyPhase {o : RPath → Option OSErr} {s t : FS}
    (hws : wfFS s = true) (hwt : wfFS t = true) :
    (syncFS o true s t).err = (copyPhase o s t).err := by
  cases h : (copyPhase o s t).err with
  | some e => rw [syncFS_true_err h, h]
  | none => exact (syncFS_final hws hwt h).1

/-! ### Verifier lemmas -/

theorem zip_all_left : ∀ {sps tps : List RPath} {f : RPath × RPath → Bool},
    sps.length = tps.length → (sps.zip tps).all f = true →
    ∀ p ∈ sps, ∃ q ∈ tps, f (p, q) = true := by
  intro sps
  induction sps with
  | nil => intro tps f _ _ p hp; simp at hp
  | cons a sps ih =>
    intro tps f hlen hall p hp
    cases tps with
    | nil => simp at hlen
    | cons b tps =>
      rw [List.zip_cons_cons, List.all_cons, Bool.and_eq_true] at hall
      rcases List.mem_cons.1 hp with hp | hp
      · exact ⟨b, List.mem_cons_self _ _, hp ▸ hall.1⟩
      · obtain ⟨q, hq, hf⟩ := ih (by simpa using hlen) hall.2 p hp
        exact ⟨q, List.mem_cons_of_mem _ hq, hf⟩

theorem zip_all_right : ∀ {sps tps : List RPath} {f : RPath × RPath → Bool},
    sps.length = tps.length → (sps.zip tps).all f = true →
    ∀ q ∈ tps, ∃ p ∈ sps, f (p, q) = true := by
  intro sps
  induction sps with
  | nil =>
    intro tps f hlen _ q hq
    cases tps with
    | nil => simp at hq
    | cons b tps => simp at hlen
  | cons a sps ih =>
    intro tps f hlen hall q hq
    cases tps with
    | nil => simp at hq
    | cons b tps =>
      rw [List.zip_cons_cons, List.all_cons, Bool.and_eq_true] at hall
      rcases List.mem_cons.1 hq with hq | hq
      · exact ⟨a, List.mem_cons_self _ _, hq ▸ hall.1⟩
      · obtain ⟨p, hp, hf⟩ := ih (by simpa using hlen) hall.2 q hq
        exact ⟨p, List.mem_cons_of_mem _ hp, hf⟩

theorem nodup_mutual_length {l1 l2 : List RPath} (h1 : l1.Nodup) (h2 : l2.Nodup)
    (hmem : ∀ p, p ∈ l1 ↔ p ∈ l2) : l1.length = l2.length := by
  have ha : List.Subperm l1 l2 := (List.subperm_of_subset h1 (fun p hp => (hmem p).1 hp))
  have hb : List.Subperm l2 l1 := (List.subperm_of_subset h2 (fun p hp => (hmem p).2 hp))
  exact le_antisymm ha.length_le hb.length_le

/-- `verify_sync` on two well-formed walks is the order-free set criterion:
same relative paths on both sides, same kind everywhere, and timestamps
within `EPSILON` for the non-directories. -/
theorem verify_iff_lemma {s t : FS} (hws : wfFS s = true) (hwt : wfFS t = true) :
    verifyFS s t = true ↔
      ((∀ p : RPath, p ∈ s.map Prod.fst ↔ p ∈ t.map Prod.fst) ∧
       (∀ p ∈ s.map Prod.fst, isDirP s p = isDirP t p) ∧
       (∀ p ∈ s.map Prod.fst, isDirP s p = false →
         |mtimeD s p - mtimeD t p| ≤ EPSILON)) := by
  unfold verifyFS
  simp only [Bool.and_eq_true, decide_eq_true_eq]
  constructor
  · rintro ⟨hlen, hall⟩
    have hpair : ∀ p ∈ s.map Prod.fst, p ∈ t.map Prod.fst ∧
        isDirP s p = isDirP t p ∧
        (isDirP s p = false → |mtimeD s p - mtimeD t p| ≤ EPSILON) := by
      intro p hp
      obtain ⟨q, _, hf⟩ := zip_all_left hlen hall p hp
      simp only [Bool.and_eq_true, decide_eq_true_eq, Bool.or_eq_true,
        Bool.not_eq_true'] at hf
      refine ⟨hf.1.1.1, hf.1.2, ?_⟩
      intro hdir
      rcases hf.2 with h | h
      · rw [hdir] at h; exact absurd h (by simp)
      · exact not_outdated_le h
    refine ⟨?_, fun p hp => (hpair p hp).2.1, fun p hp => (hpair p hp).2.2⟩
    intro p
    constructor
    · intro hp
      exact (hpair p hp).1
    · intro hp
      obtain ⟨q, hq, hf⟩ := zip_all_right hlen hall p hp
      simp only [Bool.and_eq_true, decide_eq_true_eq] at hf
      exact hf.1.1.2
  · rintro ⟨hmem, hkind, hmt⟩
    have hlen : (s.map Prod.fst).length = (t.map Prod.fst).length :=
      nodup_mutual_length (wf_nodup hws) (wf_nodup hwt) hmem
    refine ⟨hlen, ?_⟩
    rw [List.all_eq_true]
    rintro ⟨p, q⟩ hpq
    have hp : p ∈ s.map Prod.fst ∧ q ∈ t.map Prod.fst := by
      constructor
      · exact List.map_fst_zip _ _ (le_of_eq hlen) ▸ List.mem_map.2 ⟨(p, q), hpq, rfl⟩
      · exact List.map_snd_zip _ _ (le_of_eq hlen.symm) ▸ List.mem_map.2 ⟨(p, q), hpq, rfl⟩
    simp only [Bool.and_eq_true, decide_eq_true_eq, Bool.or_eq_true, Bool.not_eq_true']
    refine ⟨⟨⟨(hmem p).1 hp.1, (hmem q).2 hp.2⟩, hkind p hp.1⟩, ?_⟩
    cases hdir : isDirP s p with
    | true => exact Or.inl rfl
    | false =>
      right
      unfold outdated
      rw [decide_eq_false_iff_not]
      exact not_lt_of_le (hmt p hp.1 hdir)

/-! ### World-level lemmas -/

theorem syncW_consent {o : RPath → Option OSErr} {resp : String} {w : World}
    {srcR tgtR : RPath} (h : consentGiven resp = true) :
    syncW o resp w srcR tgtR =
      (spliceW w tgtR (syncFS o true (rglobW w srcR) (rglobW w tgtR)).fs,
       (syncFS o true (rglobW w srcR) (rglobW w tgtR)).log,
       (syncFS o true (rglobW w srcR) (rglobW w tgtR)).err) := by
  simp only [syncW, h, if_true]

theorem syncW_decline {o : RPath → Option OSErr} {resp : String} {w : World}
    {srcR tgtR : RPath} (h : consentGiven resp = false) :
    syncW o resp w srcR tgtR = (w, [], none) := by
  simp only [syncW, h, Bool.false_eq_true, if_false]

theorem lookupFS_mapRoot {t : FS} {root p : RPath} (h : leadsTo root p = false) :
    lookupFS (t.map (fun e => (root ++ e.1, e.2))) p = none := by
  induction t with
  | nil => rfl
  | cons e rest ih =>
    obtain ⟨q, m⟩ := e
    rw [List.map_cons, lookupFS_cons]
    have hne : root ++ q ≠ p := by
      intro hc
      have : leadsTo root p = true := leadsTo_iff_append.2 ⟨q, hc.symm⟩
      rw [this] at h
      exact absurd h (by simp)
    rw [if_neg hne]
    exact ih

theorem lookupFS_splice {w : World} {root : RPath} {t : FS} {p : RPath}
    (h : leadsTo root p = false) :
    lookupFS (spliceW w root t) p = lookupFS w p := by
  unfold spliceW
  rw [lookupFS_append]
  have hfil : lookupFS
      (w.filter (fun e => !(leadsTo root e.1 && decide (e.1 ≠ root)))) p =
      lookupFS w p := by
    rw [lookupFS_filterKey w (fun q => !(leadsTo root q && decide (q ≠ root))) p]
    rw [h]
    simp
  rw [hfil]
  cases hl : lookupFS w p with
  | some m => rfl
  | none => exact lookupFS_mapRoot h

theorem subtreeW_filter_out (w : World) (root : RPath) :
    subtreeW (w.filter (fun e => !(leadsTo root e.1 && decide (e.1 ≠ root)))) root
      = [] := by
  unfold subtreeW
  rw [List.filterMap_eq_nil]
  intro e he
  have hg := List.of_mem_filter he
  rw [Bool.not_eq_true'] at hg
  rw [hg]
  rfl

theorem subtreeW_map_root (root : RPath) : ∀ (t : FS), (∀ e ∈ t, e.1 ≠ []) →
    subtreeW (t.map (fun e => (root ++ e.1, e.2))) root = t := by
  intro t
  induction t with
  | nil => intro _; rfl
  | cons e rest ih =>
    intro hnil
    obtain ⟨q, m⟩ := e
    have hq : q ≠ [] := hnil (q, m) (List.mem_cons_self _ _)
    rw [List.map_cons]
    unfold subtreeW
    rw [List.filterMap_cons]
    have h1 : leadsTo root (root ++ q) = true := leadsTo_iff_append.2 ⟨q, rfl⟩
    have h2 : root ++ q ≠ root := by
      intro hc
      have := congrArg List.length hc
      simp at this
      exact hq this
    have h2d : decide (root ++ q ≠ root) = true := decide_eq_true h2
    simp only [h1, h2d, Bool.and_self, if_true, List.filterMap_cons_some]
    rw [List.drop_left]
    show ((q, m) :: List.filterMap _ (rest.map _)) = (q, m) :: rest
    have := ih (fun e he => hnil e (List.mem_cons_of_mem _ he))
    unfold subtreeW at this
    rw [this]

theorem subtreeW_splice {w : World} {root : RPath} {t : FS}
    (ht : ∀ e ∈ t, e.1 ≠ []) :
    subtreeW (spliceW w root t) root = t := by
  unfold spliceW subtreeW
  rw [List.filterMap_append]
  have h1 := subtreeW_filter_out w root
  have h2 := subtreeW_map_root root t ht
  unfold subtreeW at h1 h2
  rw [h1, h2, List.nil_append]

theorem wfFS_nil : wfFS ([] : FS) = true := by decide

/-! ### Facts about the finished target tree -/

theorem outdated_false_of_le {a b : ℚ} (h : |a - b| ≤ EPSILON) :
    outdated a b = false := by
  unfold outdated
  rw [decide_eq_false_iff_not]
  exact not_lt_of_le h

theorem lookup_final {o : RPath → Option OSErr} {s t : FS} (hws : wfFS s = true)
    (hwt : wfFS t = true) (hcp : (copyPhase o s t).err = none) {p : RPath}
    (hp : p ∈ s.map Prod.fst) :
    lookupFS (syncFS o true s t).fs p = lookupFS (copyPhase o s t).fs p := by
  rw [syncFS_final_paths hws hwt hcp,
    lookupFS_filterKey ((copyPhase o s t).fs)
      (fun q => decide (q ∈ s.map Prod.fst)) p]
  simp [hp]

theorem final_paths_eq {o : RPath → Option OSErr} {s t : FS}
    (hws : wfFS s = true) (hwt : wfFS t = true)
    (hcp : (copyPhase o s t).err = none) :
    (syncFS o true s t).fs.map Prod.fst =
      ((copyPhase o s t).fs.map Prod.fst).filter
        (fun q => decide (q ∈ s.map Prod.fst)) := by
  rw [syncFS_final_paths hws hwt hcp,
    map_fst_filterKey ((copyPhase o s t).fs)
      (fun q => decide (q ∈ s.map Prod.fst))]

theorem wf_final {o : RPath → Option OSErr} {s t : FS} (hws : wfFS s = true)
    (hwt : wfFS t = true) (hcp : (copyPhase o s t).err = none) :
    wfFS (syncFS o true s t).fs = true := by
  rw [(syncFS_final hws hwt hcp).2]
  exact wf_filter_keepOrNotUnder
    (copyPhase_wf hwt (fun e he => wf_ne_nil hws he)) (wf_keepClosed hws)

/-- The mirror facts of `copyPhase_mirror`, carried through the deletion
pass: all source paths are in the keep list, so the deletion filter keeps
every one of them. -/
theorem mirror_final {s t : FS} (hws : wfFS s = true) (hwt : wfFS t = true)
    (hkind : ∀ e ∈ s, e.2.isDir = false → isDirP t e.1 = false)
    (hcp : (copyPhase noFailO s t).err = none) :
    ∀ e ∈ s,
      (e.2.isDir = true →
        isDirP (syncFS noFailO true s t).fs e.1 = true) ∧
      (e.2.isDir = false →
        ∃ m', lookupFS (syncFS noFailO true s t).fs e.1 = some m' ∧
          m'.isDir = false ∧ |e.2.mtime - m'.mtime| ≤ EPSILON) := by
  intro e he
  have hm := copyPhase_mirror hws (fun x hx => hx) (wf_nodup hws) hwt hkind hcp e he
  have hp : e.1 ∈ s.map Prod.fst := List.mem_map.2 ⟨e, he, rfl⟩
  have hl := lookup_final hws hwt hcp hp
  constructor
  · intro hd
    have h1 := hm.1 hd
    unfold isDirP at h1 ⊢
    rw [hl]
    exact h1
  · intro hd
    obtain ⟨m', hm', hdir, hmt⟩ := hm.2 hd
    exact ⟨m', by rw [hl]; exact hm', hdir, hmt⟩

/-! ### The claims -/

/-- A world with a target tree but no source root, for the missing-root
runs. -/
def wEx1 : World := [(["t"], dirMeta), (["t", "x"], ⟨false, 5, "hello"⟩)]

/-- C1, counterexample.  With the source root absent, `Path.rglob` yields
nothing and raises nothing: the sync runs to completion (`err = none`) —
nothing propagates, nothing aborts — and the deletion pass then wipes the
target; `verify_sync` likewise walks both roots without an error and
returns `false`. -/
theorem missing_root_counterexample :
    existsP wEx1 ["s"] = false ∧
    (syncW noFailO "y" wEx1 ["s"] ["t"]).2.2 = none ∧
    (syncW noFailO "y" wEx1 ["s"] ["t"]).1 = [(["t"], dirMeta)] ∧
    verifyW wEx1 ["s"] ["t"] = false := by decide

/-- C1, amended.  Walking a non-existing root raises no error at all:
`rglob` on it is empty, the sync returns with `err = none`, and — when the
user consented — the empty keep set makes the deletion pass empty the
whole target subtree. -/
theorem missing_root_amended (o : RPath → Option OSErr) (resp : String)
    (w : World) (srcR tgtR : RPath) (hs : existsP w srcR = false)
    (hwt : wfFS (rglobW w tgtR) = true) :
    rglobW w srcR = [] ∧
    (syncW o resp w srcR tgtR).2.2 = none ∧
    (consentGiven resp = true →
      subtreeW (syncW o resp w srcR tgtR).1 tgtR = []) := by
  have hlk : lookupFS w srcR = none := existsP_false_iff.1 hs
  have hdir : isDirP w srcR = false := by
    unfold isDirP
    rw [hlk]
  have hrg : rglobW w srcR = [] := by
    unfold rglobW
    rw [hdir]
    simp
  refine ⟨hrg, ?_, ?_⟩
  · cases hcons : consentGiven resp with
    | false => rw [syncW_decline hcons]
    | true =>
      rw [syncW_consent hcons, hrg]
      exact (syncFS_final wfFS_nil hwt (by rw [copyPhase_nil])).1
  · intro hcons
    rw [syncW_consent hcons, hrg]
    have hfs : (syncFS o true [] (rglobW w tgtR)).fs = [] := by
      rw [syncFS_final_paths wfFS_nil hwt (by rw [copyPhase_nil])]
      simp
    rw [hfs]
    exact @subtreeW_splice w tgtR [] (by intro e he; simp at he)

/-- C1, witness for the amended theorem at a concrete world. -/
theorem missing_root_witness :
    existsP wEx1 ["s"] = false ∧ wfFS (rglobW wEx1 ["t"]) = true ∧
    (rglobW wEx1 ["s"] = [] ∧
     (syncW noFailO "y" wEx1 ["s"] ["t"]).2.2 = none ∧
     (consentGiven "y" = true →
       subtreeW (syncW noFailO "y" wEx1 ["s"] ["t"]).1 ["t"] = [])) :=
  ⟨by decide, by decide,
   missing_root_amended noFailO "y" wEx1 ["s"] ["t"] (by decide) (by decide)⟩

/-- An environment whose copy of `f` reports a disk-full `OSError`. -/
def oEx2 : RPath → Option OSErr := fun p => if p = ["f"] then some .diskFull else none

/-- A source walk with two files, the first of which `oEx2` fails. -/
def sEx2 : FS := [(["f"], ⟨false, 5, "x"⟩), (["g"], ⟨false, 6, "y"⟩)]

/-- C2, counterexample.  A disk-full error — not a permission error — is
raised during the copy of `f`, yet the run finishes with `err = none` and
goes on to copy `g`: the second `except OSError: pass` arm of the code
swallows every `OSError`, not only `PermissionError`. -/
theorem suppressed_error_counterexample :
    oEx2 ["f"] = some OSErr.diskFull ∧ OSErr.diskFull ≠ OSErr.permission ∧
    (syncFS oEx2 true sEx2 []).err = none ∧
    LogItem.copying ["f"] ∈ (syncFS oEx2 true sEx2 []).log ∧
    existsP (syncFS oEx2 true sEx2 []).fs ["f"] = false ∧
    existsP (syncFS oEx2 true sEx2 []).fs ["g"] = true := by decide

/-- C2, amended.  No copy error of any class ever escapes `sync_directory`:
the only errors the run can propagate are `mkdir` conflicts (a target path
or ancestor exists as a non-directory).  Every platform copy error — the
oracle is arbitrary here — is suppressed and the sync continues. -/
theorem suppressed_error_amended {o : RPath → Option OSErr} {s t : FS}
    (hws : wfFS s = true) (hwt : wfFS t = true) {e : SyncErr}
    (h : (syncFS o true s t).err = some e) :
    ∃ q, e = SyncErr.mkdirConflict q := by
  rw [syncFS_err_eq_copyPhase hws hwt] at h
  exact copyPhase_err_shape h

/-- A source walk holding one directory. -/
def sEx2b : FS := [(["d"], dirMeta)]

/-- A target walk holding a file where the source has a directory. -/
def tEx2b : FS := [(["d"], ⟨false, 2, "z"⟩)]

/-- C2, witness: the one propagated error is a `mkdir` conflict. -/
theorem suppressed_error_witness :
    wfFS sEx2b = true ∧ wfFS tEx2b = true ∧
    (syncFS noFailO true sEx2b tEx2b).err =
      some (SyncErr.mkdirConflict ["d"]) ∧
    ∃ q, SyncErr.mkdirConflict ["d"] = SyncErr.mkdirConflict q :=
  ⟨by decide, by decide, by decide,
   @suppressed_error_amended noFailO sEx2b tEx2b (by decide) (by decide)
     (SyncErr.mkdirConflict ["d"]) (by decide)⟩

/-- C4.  On a run that propagates no error, a source file is copied —
its `Copying` line is printed — exactly when the target path does not
exist or the two timestamps differ by more than `EPSILON`; with the
target present and the timestamps within tolerance, no copy of it is
performed. -/
theorem copy_decision {o : RPath → Option OSErr} {s t : FS} {rel : RPath}
    {m : EMeta} (hws : wfFS s = true) (hwt : wfFS t = true)
    (hok : (syncFS o true s t).err = none)
    (hm : (rel, m) ∈ s) (hf : m.isDir = false) :
    LogItem.copying rel ∈ (syncFS o true s t).log ↔
      (existsP t rel = false ∨ outdated m.mtime (mtimeD t rel) = true) := by
  have hcp : (copyPhase o s t).err = none := by
    rw [← syncFS_err_eq_copyPhase hws hwt]
    exact hok
  have hiff := copyPhase_copy_iff hws (fun e he => he) (wf_nodup hws) hcp hm hf
  rw [syncFS_true_ok hcp]
  constructor
  · intro h
    rcases List.mem_append.1 h with h | h
    · exact hiff.1 h
    · have := delWalk_log_del _ _ _ _ _ h
      simp [LogItem.isCopy] at this
  · intro h
    exact List.mem_append.2 (Or.inl (hiff.2 h))

/-- A source walk with one file, newer than its target copy. -/
def sEx4 : FS := [(["a"], ⟨false, 5, "new"⟩)]

/-- A target walk with a stale copy of the file. -/
def tEx4 : FS := [(["a"], ⟨false, 1, "old"⟩)]

set_option maxHeartbeats 8000000 in
/-- C4, witness: the copy-decision equivalence at a stale target file. -/
theorem copy_decision_witness :
    wfFS sEx4 = true ∧ wfFS tEx4 = true ∧
    (syncFS noFailO true sEx4 tEx4).err = none ∧
    ((["a"], (⟨false, 5, "new"⟩ : EMeta)) ∈ sEx4) ∧
    (LogItem.copying ["a"] ∈ (syncFS noFailO true sEx4 tEx4).log ↔
      (existsP tEx4 ["a"] = false ∨
        outdated (5 : ℚ) (mtimeD tEx4 ["a"]) = true)) :=
  ⟨by decide, by decide, by decide, by decide,
   @copy_decision noFailO sEx4 tEx4 ["a"] ⟨false, 5, "new"⟩
     (by decide) (by decide) (by decide) (by decide) (by decide)⟩

/-- C5.  Deletion completeness: after a run that propagates no error,
no relative path outside the source walk's keep set exists under the
target any more — whether it was a file, a directory, or a descendant of
a deleted directory. -/
theorem deletion_completeness {o : RPath → Option OSErr} {s t : FS}
    (p : RPath) (hws : wfFS s = true) (hwt : wfFS t = true)
    (hok : (syncFS o true s t).err = none) (hp : p ∉ s.map Prod.fst) :
    existsP (syncFS o true s t).fs p = false := by
  have hcp : (copyPhase o s t).err = none := by
    rw [← syncFS_err_eq_copyPhase hws hwt]
    exact hok
  rw [syncFS_final_paths hws hwt hcp, existsP_false_iff,
    lookupFS_filterKey ((copyPhase o s t).fs)
      (fun q => decide (q ∈ s.map Prod.fst)) p]
  simp [hp]

/-- A source walk with one file. -/
def sEx5 : FS := [(["a"], ⟨false, 5, "x"⟩)]

/-- A target walk with the same file and one stale extra. -/
def tEx5 : FS := [(["a"], ⟨false, 5, "x"⟩), (["x"], ⟨false, 1, "j"⟩)]

/-- C5, witness: the stale path is gone after the run. -/
theorem deletion_completeness_witness :
    wfFS sEx5 = true ∧ wfFS tEx5 = true ∧
    (syncFS noFailO true sEx5 tEx5).err = none ∧
    (["x"] ∉ sEx5.map Prod.fst) ∧
    existsP (syncFS noFailO true sEx5 tEx5).fs ["x"] = false :=
  ⟨by decide, by decide, by decide, by decide,
   deletion_completeness ["x"] (by decide) (by decide) (by decide) (by decide)⟩

/-- C6.  The deletion pass itself reports no error on any well-formed
pair of walks: the walk never yields a path an earlier recursive
directory deletion already removed (each directory's listing is taken
when the walk reaches it), so no deletion is ever attempted on a missing
path — and the whole run's error is exactly the copy phase's. -/
theorem deletion_pass_no_error {o : RPath → Option OSErr} {s t : FS}
    (hws : wfFS s = true) (hwt : wfFS t = true) :
    (delWalk (s.map Prod.fst) (fuelFor (copyPhase o s t).fs)
        (copyPhase o s t).fs []).err = none ∧
    (syncFS o true s t).err = (copyPhase o s t).err := by
  have hwcp : wfFS (copyPhase o s t).fs = true :=
    copyPhase_wf hwt (fun e he => wf_ne_nil hws he)
  have hdel := delWalk_spec (fuelFor (copyPhase o s t).fs) (s.map Prod.fst)
    (copyPhase o s t).fs [] hwcp (wf_keepClosed hws) (fuelFor_big _ _)
  refine ⟨hdel.1, ?_⟩
  cases h : (copyPhase o s t).err with
  | some e => rw [syncFS_true_err h, h]
  | none =>
    rw [syncFS_true_ok h]
    exact hdel.1

/-- A source walk with one file. -/
def sEx6 : FS := [(["a"], ⟨false, 5, "x"⟩)]

/-- A target walk with a directory tree absent from the source, so the
deletion pass removes a directory recursively and then meets its
children in the walk. -/
def tEx6 : FS :=
  [(["d"], dirMeta), (["d", "u"], ⟨false, 1, "u"⟩), (["e"], ⟨false, 2, "e"⟩)]

/-- C6, witness: a deletion pass that removes a directory with contents
still finishes with no error. -/
theorem deletion_pass_no_error_witness :
    wfFS sEx6 = true ∧ wfFS tEx6 = true ∧
    ((delWalk (sEx6.map Prod.fst) (fuelFor (copyPhase noFailO sEx6 tEx6).fs)
        (copyPhase noFailO sEx6 tEx6).fs []).err = none ∧
     (syncFS noFailO true sEx6 tEx6).err =
       (copyPhase noFailO sEx6 tEx6).err) :=
  ⟨by decide, by decide, deletion_pass_no_error (by decide) (by decide)⟩

/-- C9.  When the two roots are prefix-disjoint — neither lies inside the
other, the configuration the tool is for — every path at or below the
source root resolves to exactly the same entry after a run of
`sync_directory` as before it: the engine only rewrites what lies strictly
below the target root. -/
theorem sync_never_touches_source (o : RPath → Option OSErr) (resp : String)
    (w : World) (srcR tgtR : RPath) (p : RPath)
    (h1 : leadsTo srcR tgtR = false) (h2 : leadsTo tgtR srcR = false)
    (hp : leadsTo srcR p = true) :
    lookupFS (syncW o resp w srcR tgtR).1 p = lookupFS w p := by
  cases hcons : consentGiven resp with
  | false => rw [syncW_decline hcons]
  | true =>
    rw [syncW_consent hcons]
    have htp : leadsTo tgtR p = false := by
      cases htp : leadsTo tgtR p with
      | false => rfl
      | true =>
        rcases leadsTo_comparable hp htp with h | h
        · rw [h] at h1
          simp at h1
        · rw [h] at h2
          simp at h2
    exact lookupFS_splice htp

/-- A world with a populated source subtree and a populated target
subtree, side by side. -/
def wEx9 : World :=
  [(["s"], dirMeta), (["s", "a"], ⟨false, 7, "src"⟩),
   (["t"], dirMeta), (["t", "b"], ⟨false, 1, "tgt"⟩)]

/-- C9, witness: a source file is byte-for-byte untouched by a consented
run that rewrites the target. -/
theorem sync_never_touches_source_witness :
    leadsTo ["s"] ["t"] = false ∧ leadsTo ["t"] ["s"] = false ∧
    leadsTo ["s"] ["s", "a"] = true ∧
    lookupFS (syncW noFailO "y" wEx9 ["s"] ["t"]).1 ["s", "a"] =
      lookupFS wEx9 ["s", "a"] :=
  ⟨by decide, by decide, by decide,
   sync_never_touches_source noFailO "y" wEx9 ["s"] ["t"] ["s", "a"]
     (by decide) (by decide) (by decide)⟩

/-- C10.  A confirmed sync from a source root with no descendants: the
walk of the source is empty, so the run reports no error, its log holds
no `Copying` line, and the deletion pass removes everything below the
target root. -/
theorem empty_source_wipes_target (o : RPath → Option OSErr) (resp : String)
    (w : World) (srcR tgtR : RPath) (hres : consentGiven resp = true)
    (hs : subtreeW w srcR = []) (hwt : wfFS (rglobW w tgtR) = true) :
    (syncW o resp w srcR tgtR).2.2 = none ∧
    (∀ x ∈ (syncW o resp w srcR tgtR).2.1, x.isCopy = false) ∧
    subtreeW (syncW o resp w srcR tgtR).1 tgtR = [] := by
  have hrg : rglobW w srcR = [] := by
    unfold rglobW
    cases isDirP w srcR with
    | false => simp
    | true => simpa using hs
  rw [syncW_consent hres, hrg]
  have hcp : (copyPhase o ([] : FS) (rglobW w tgtR)).err = none := by
    rw [copyPhase_nil]
  refine ⟨(syncFS_final wfFS_nil hwt hcp).1, ?_, ?_⟩
  · intro x hx
    rw [syncFS_true_ok hcp] at hx
    rw [copyPhase_nil] at hx
    simp only [List.nil_append] at hx
    exact delWalk_log_del _ _ _ _ x (by simpa using hx)
  · have hfs : (syncFS o true [] (rglobW w tgtR)).fs = [] := by
      rw [syncFS_final_paths wfFS_nil hwt hcp]
      simp
    rw [hfs]
    exact @subtreeW_splice w tgtR [] (by intro e he; simp at he)

/-- A world whose source root exists but is empty, next to a populated
target. -/
def wEx10 : World :=
  [(["s"], dirMeta), (["t"], dirMeta), (["t", "old"], ⟨false, 3, "o"⟩),
   (["t", "d"], dirMeta), (["t", "d", "u"], ⟨false, 4, "u"⟩)]

/-- The specification's verifier criterion, stated set-wise over the two
walks and independent of walk order: equal relative-path sets, matching
kinds on every shared path, and file timestamps within `EPSILON`. -/
def verifySpec (s t : FS) : Prop :=
  (∀ p : RPath, p ∈ s.map Prod.fst ↔ p ∈ t.map Prod.fst) ∧
  (∀ p ∈ s.map Prod.fst, isDirP s p = isDirP t p) ∧
  (∀ p ∈ s.map Prod.fst, isDirP s p = false →
    |mtimeD s p - mtimeD t p| ≤ EPSILON)

/-- C3.  On well-formed walks, `verify_sync` returns true exactly when
the order-free set criterion holds — the path sets agree in both
directions, kinds match, file timestamps are within tolerance — and in
particular an extra target path not in the source forces a false
verdict. -/
theorem verify_set_semantics {s t : FS} (hws : wfFS s = true)
    (hwt : wfFS t = true) :
    (verifyFS s t = true ↔ verifySpec s t) ∧
    (∀ p ∈ t.map Prod.fst, p ∉ s.map Prod.fst → verifyFS s t = false) := by
  have hiff := verify_iff_lemma hws hwt
  refine ⟨hiff, ?_⟩
  intro p hpt hps
  cases hv : verifyFS s t with
  | false => rfl
  | true => exact absurd (((hiff.1 hv).1 p).2 hpt) hps

/-- A source walk with one file. -/
def sEx3 : FS := [(["a"], ⟨false, 5, "x"⟩)]

/-- A target walk agreeing on the file but holding one extra path. -/
def tEx3 : FS := [(["a"], ⟨false, 5, "x"⟩), (["z"], ⟨false, 1, "z"⟩)]

/-- C3, witness: the characterisation at a target with an extra file. -/
theorem verify_set_semantics_witness :
    wfFS sEx3 = true ∧ wfFS tEx3 = true ∧
    ((verifyFS sEx3 tEx3 = true ↔ verifySpec sEx3 tEx3) ∧
     (∀ p ∈ tEx3.map Prod.fst, p ∉ sEx3.map Prod.fst →
       verifyFS sEx3 tEx3 = false)) :=
  ⟨by decide, by decide, @verify_set_semantics sEx3 tEx3 (by decide) (by decide)⟩

/-- A source walk with a file where the target has a directory. -/
def sEx7 : FS := [(["f"], ⟨false, 0, "x"⟩)]

/-- A target walk with a directory at the file's path. -/
def tEx7 : FS := [(["f"], dirMeta)]

/-- C7, counterexample.  The target holds a directory where the source
holds a file of a close timestamp: the copy loop sees the path as
existing and in tolerance and skips it, the deletion pass keeps it (its
path is in the keep set), the run finishes with no error — and
`verify_sync` immediately afterwards returns false on the kind
mismatch. -/
theorem sync_verify_counterexample :
    (syncFS noFailO true sEx7 tEx7).err = none ∧
    verifyFS sEx7 (syncFS noFailO true sEx7 tEx7).fs = false := by decide

/-- C7, amended.  With no platform copy failures and no target directory
sitting at a source file's path, a run that propagates no error leaves
the target verifying true against the source. -/
theorem sync_verify_amended {s t : FS} (hws : wfFS s = true)
    (hwt : wfFS t = true)
    (hkind : ∀ e ∈ s, e.2.isDir = false → isDirP t e.1 = false)
    (hok : (syncFS noFailO true s t).err = none) :
    verifyFS s (syncFS noFailO true s t).fs = true := by
  have hcp : (copyPhase noFailO s t).err = none := by
    rw [← syncFS_err_eq_copyPhase hws hwt]
    exact hok
  have hwF : wfFS (syncFS noFailO true s t).fs = true := wf_final hws hwt hcp
  have hmf := mirror_final hws hwt hkind hcp
  refine (verify_iff_lemma hws hwF).2 ⟨?_, ?_, ?_⟩
  · intro p
    constructor
    · intro hp
      obtain ⟨e, he, rfl⟩ := List.mem_map.1 hp
      cases hd : e.2.isDir with
      | true => exact isDirP_mem_paths ((hmf e he).1 hd)
      | false =>
        obtain ⟨m', hm', _, _⟩ := (hmf e he).2 hd
        exact mem_paths_of_lookup hm'
    · intro hp
      rw [final_paths_eq hws hwt hcp] at hp
      simpa using (List.mem_filter.1 hp).2
  · intro p hp
    obtain ⟨e, he, rfl⟩ := List.mem_map.1 hp
    have hsdir : isDirP s e.1 = e.2.isDir := by
      obtain ⟨q, m⟩ := e
      exact isDirP_of_mem_nodup (wf_nodup hws) he
    cases hd : e.2.isDir with
    | true => rw [hsdir, hd, (hmf e he).1 hd]
    | false =>
      obtain ⟨m', hm', hdir', _⟩ := (hmf e he).2 hd
      rw [hsdir, hd]
      unfold isDirP
      rw [hm']
      exact hdir'.symm
  · intro p hp hdir
    obtain ⟨e, he, rfl⟩ := List.mem_map.1 hp
    have hsdir : isDirP s e.1 = e.2.isDir := by
      obtain ⟨q, m⟩ := e
      exact isDirP_of_mem_nodup (wf_nodup hws) he
    have hd : e.2.isDir = false := by
      rw [← hsdir]
      exact hdir
    obtain ⟨m', hm', hdir', hmt⟩ := (hmf e he).2 hd
    have hms : mtimeD s e.1 = e.2.mtime := by
      unfold mtimeD
      obtain ⟨q, m⟩ := e
      rw [lookupFS_of_nodup (wf_nodup hws) he]
    have hmF : mtimeD (syncFS noFailO true s t).fs e.1 = m'.mtime := by
      unfold mtimeD
      rw [hm']
    rw [hms, hmF]
    exact hmt

/-- A source walk with a directory and a file inside it. -/
def sEx7w : FS := [(["d"], dirMeta), (["d", "a"], ⟨false, 5, "x"⟩)]

/-- C7, witness: a clean sync into an empty target verifies true. -/
theorem sync_verify_witness :
    wfFS sEx7w = true ∧ wfFS ([] : FS) = true ∧
    (∀ e ∈ sEx7w, e.2.isDir = false → isDirP ([] : FS) e.1 = false) ∧
    (syncFS noFailO true sEx7w []).err = none ∧
    verifyFS sEx7w (syncFS noFailO true sEx7w []).fs = true :=
  ⟨by decide, by decide, by decide, by decide,
   @sync_verify_amended sEx7w [] (by decide) (by decide) (by decide) (by decide)⟩

/-- An environment whose copy of `f` reports a permission error. -/
def oEx8 : RPath → Option OSErr :=
  fun p => if p = ["f"] then some .permission else none

/-- A source walk with the one file the environment refuses to copy. -/
def sEx8 : FS := [(["f"], ⟨false, 5, "x"⟩)]

/-- C8, counterexample.  The first run suppresses a permission error on
the copy of `f` and finishes with no error — a successful run, nothing
propagated — but leaves `f` missing from the target, so the second run,
on the unchanged filesystem, prints `Copying f` again: it performs a
copy, not zero copies. -/
theorem idempotence_counterexample :
    (syncFS oEx8 true sEx8 []).err = none ∧
    (syncFS oEx8 true sEx8 (syncFS oEx8 true sEx8 []).fs).log =
      [LogItem.copying ["f"]] := by decide

/-- C8, amended.  When the first run meets no platform copy failure and
no kind conflict, a second run on its output is the identity: the same
tree, an empty log — zero copies and zero deletions — and no error. -/
theorem idempotence_amended {s t : FS} (hws : wfFS s = true)
    (hwt : wfFS t = true)
    (hkind : ∀ e ∈ s, e.2.isDir = false → isDirP t e.1 = false)
    (hok : (syncFS noFailO true s t).err = none) :
    syncFS noFailO true s (syncFS noFailO true s t).fs =
      ⟨(syncFS noFailO true s t).fs, [], none⟩ := by
  have hcp : (copyPhase noFailO s t).err = none := by
    rw [← syncFS_err_eq_copyPhase hws hwt]
    exact hok
  have hmf := mirror_final hws hwt hkind hcp
  have hnoop : copyPhase noFailO s (syncFS noFailO true s t).fs =
      ⟨(syncFS noFailO true s t).fs, [], none⟩ := by
    apply copyPhase_noop
    intro e he
    constructor
    · intro hd q hq
      rcases mem_pfxs.1 hq with ⟨hqne, hqlt⟩
      by_cases hqe : q = e.1
      · subst hqe
        exact (hmf e he).1 hd
      · have hq1 : isDirP s q = true := wf_anc hws he hqne hqlt hqe
        unfold isDirP at hq1
        cases hlq : lookupFS s q with
        | none =>
          rw [hlq] at hq1
          simp at hq1
        | some mq =>
          rw [hlq] at hq1
          exact (hmf (q, mq) (lookupFS_mem hlq)).1 hq1
    · intro hd
      obtain ⟨m', hm', hdir', hmt⟩ := (hmf e he).2 hd
      refine ⟨?_, ?_⟩
      · unfold existsP
        rw [hm']
        rfl
      · have hmF : mtimeD (syncFS noFailO true s t).fs e.1 = m'.mtime := by
          unfold mtimeD
          rw [hm']
        rw [hmF]
        exact outdated_false_of_le hmt
  have hkeep : ∀ p ∈ (syncFS noFailO true s t).fs.map Prod.fst,
      p ∈ s.map Prod.fst := by
    intro p hp
    rw [final_paths_eq hws hwt hcp] at hp
    simpa using (List.mem_filter.1 hp).2
  have hcpF : (copyPhase noFailO s (syncFS noFailO true s t).fs).err = none := by
    rw [hnoop]
  have hdel := fun fuel d => delWalk_noop fuel (s.map Prod.fst)
    (syncFS noFailO true s t).fs hkeep d
  rw [syncFS_true_ok hcpF, hnoop]
  simp only [hdel]
  rfl

/-- A source walk with a directory and a file in it, and an empty target:
the first run builds the mirror cleanly. -/
def sEx8w : FS := [(["d"], dirMeta), (["d", "b"], ⟨false, 9, "b"⟩)]

/-- C8, witness: re-running after a clean first run changes nothing and
logs nothing. -/
theorem idempotence_witness :
    wfFS sEx8w = true ∧ wfFS ([] : FS) = true ∧
    (∀ e ∈ sEx8w, e.2.isDir = false → isDirP ([] : FS) e.1 = false) ∧
    (syncFS noFailO true sEx8w []).err = none ∧
    syncFS noFailO true sEx8w (syncFS noFailO true sEx8w []).fs =
      ⟨(syncFS noFailO true sEx8w []).fs, [], none⟩ :=
  ⟨by decide, by decide, by decide, by decide,
   @idempotence_amended sEx8w [] (by decide) (by decide) (by decide) (by decide)⟩

/-- C10, witness at a concrete world with a nested target tree. -/
theorem empty_source_wipes_target_witness :
    consentGiven "y" = true ∧ subtreeW wEx10 ["s"] = [] ∧
    wfFS (rglobW wEx10 ["t"]) = true ∧
    ((syncW noFailO "y" wEx10 ["s"] ["t"]).2.2 = none ∧
     (∀ x ∈ (syncW noFailO "y" wEx10 ["s"] ["t"]).2.1, x.isCopy = false) ∧
     subtreeW (syncW noFailO "y" wEx10 ["s"] ["t"]).1 ["t"] = []) :=
  ⟨by decide, by decide, by decide,
   empty_source_wipes_target noFailO "y" wEx10 ["s"] ["t"]
     (by decide) (by decide) (by decide)⟩

end SyncFolders
